import Mathlib

/-!
Verification of the dependency-ordering core of `src/compiler/sorting.ts`
(typescript-plus).

The development is a shallow embedding of `sorting.ts`:

* File names are drawn from an arbitrary type `α` with decidable equality
  (the TypeScript code only ever compares file names for equality).
* The global mutable maps of the source (`dependencyMap : Map<string[]>`,
  `pathWeightMap : Map<number>`) become explicit values threaded through the
  functions: `DepMap α` is an association list with unique keys (JS object
  semantics) and `WeightMap α` is a lookup function `α → Option Nat`
  (`none` models an `undefined` entry).
* `updatePathWeight` in the source is recursive with no structural bound
  (its termination relies on the visited-path argument growing inside a
  finite name universe), so its embedding takes an explicit fuel argument;
  `sortOnDependency` instantiates the fuel with `upwFuel`, which is provably
  sufficient (the recursion depth is bounded by the number of names
  occurring as dependency targets).
* The parts of the TypeScript compiler that `sorting.ts` merely consumes
  (the syntax tree and the symbol checker) are modelled as data: every
  reference node carries the result that `checker.getSymbolAtLocation`
  followed by `symbol.valueDeclaration`/`getSourceFileOfNode` would produce
  for it (`Option (Resolution α)`; `none` models an unresolved reference),
  and a resolved declaration carries its declaring file and, inline, the
  body the checker functions would recurse into.  The declaration-file flag
  of a file is a function `isDecl : α → Bool` of its name, which is exactly
  the consistency the real compiler provides (two resolutions of the same
  file always agree on `isDeclarationFile`).  Because declaration bodies
  are inlined, the model represents exactly the inputs on which the
  recursive walk of the source terminates; the builder functions also carry
  fuel so that the embedding is total and computable.
-/

namespace ts

/-- Dependency map: association list from a file name to the list of file
names it depends on, mirroring the object used as `Map<string[]>`. -/
abbrev DepMap (α : Type) := List (α × List α)

/-- Path-weight map: `none` models a missing (`undefined`) entry. -/
abbrev WeightMap (α : Type) := α → Option Nat

/-- Result record of `sortOnDependency` (interface `SortingResult`). -/
structure SortingResult (α : Type) where
  sortedFileNames : List α
  circularReferences : List α
  deriving DecidableEq

/-! ### The syntax-tree model

Only the shapes that the traversal in `sorting.ts` distinguishes are
represented; every construct the source ignores collapses into an
`other...` constructor.  A `Resolution` is what the external checker
returns for a reference node: the declaring file plus the declaration the
source would recurse into. -/

mutual

inductive Expr (α : Type) where
  /-- CallExpression / NewExpression: callee plus arguments. -/
  | callE (callee : Expr α) (args : List (Expr α))
  /-- Identifier / PropertyAccessExpression, carrying its resolution. -/
  | identE (res : Option (Resolution α))
  /-- FunctionExpression; traversed only when it is the callee of a call. -/
  | functionExprE (body : List (BlockNode α))
  | objectE (props : List (ObjectProp α))
  /-- ElementAccessExpression: the source resolves the object expression as
  a location and does not recurse further, so only that resolution is kept. -/
  | elementE (objRes : Option (Resolution α))
  | arrayE (elems : List (Expr α))
  /-- TemplateExpression: the expressions of the template spans. -/
  | templateE (spans : List (Expr α))
  | parenE (e : Expr α)
  | binaryE (l r : Expr α)
  /-- PrefixUnaryExpression / PostfixUnaryExpression (operand). -/
  | unaryE (operand : Expr α)
  | deleteE (e : Expr α)
  /-- Any expression kind the switch in `checkExpression` does not handle. -/
  | otherE

inductive ObjectProp (α : Type) where
  | propAssign (init : Expr α)
  /-- ShorthandPropertyAssignment: `objectAssignmentInitializer` may be absent. -/
  | shorthandAssign (init : Option (Expr α))
  | spreadAssign (e : Expr α)
  | otherProp

/-- A node as seen by `checkCodeBlock`'s generic `forEachChild` visit:
variable statements and expression statements are acted on, anything else
is recursed into. -/
inductive BlockNode (α : Type) where
  | varNode (inits : List (Option (Expr α)))
  | exprNode (e : Expr α)
  | otherNode (children : List (BlockNode α))

/-- Resolution of a reference: declaring file name plus the value
declaration (with its body inlined, as the checker would hand it back). -/
inductive Resolution (α : Type) where
  | mk (fileName : α) (decl : DeclInfo α)

inductive DeclInfo (α : Type) where
  /-- FunctionDeclaration or MethodDeclaration, with its body. -/
  | functionDecl (body : List (BlockNode α))
  /-- ClassDeclaration, with its members. -/
  | classD (c : ClassDecl α)
  | otherDecl

inductive ClassDecl (α : Type) where
  /-- Extends-clause resolutions, class decorator expressions, members.
  An absent extends clause is the empty list.  The accessor pairing and the
  parameter lists of `checkClassDecorators` are resolved at the AST level:
  each member carries the decorator expressions the source would visit for
  it and for its parameters. -/
  | mk (extendsRes : List (Option (Resolution α))) (decorators : List (Expr α))
       (members : List (ClassMember α))

inductive ClassMember (α : Type) where
  | mk (isStatic : Bool) (decorators : List (Expr α))
       (paramDecorators : List (Expr α)) (body : MemberBody α)

inductive MemberBody (α : Type) where
  /-- PropertyDeclaration with optional initializer. -/
  | propertyMember (init : Option (Expr α))
  /-- Constructor with its body. -/
  | ctorMember (body : List (BlockNode α))
  | otherMember

end

def Resolution.fileName : Resolution α → α
  | .mk f _ => f

def Resolution.decl : Resolution α → DeclInfo α
  | .mk _ d => d

def ClassDecl.extendsRes : ClassDecl α → List (Option (Resolution α))
  | .mk e _ _ => e

def ClassDecl.decorators : ClassDecl α → List (Expr α)
  | .mk _ d _ => d

def ClassDecl.members : ClassDecl α → List (ClassMember α)
  | .mk _ _ m => m

def ClassMember.isStatic : ClassMember α → Bool
  | .mk s _ _ _ => s

def ClassMember.decorators : ClassMember α → List (Expr α)
  | .mk _ d _ _ => d

def ClassMember.paramDecorators : ClassMember α → List (Expr α)
  | .mk _ _ p _ => p

def ClassMember.body : ClassMember α → MemberBody α
  | .mk _ _ _ b => b

mutual

inductive Stmt (α : Type) where
  | exprS (e : Expr α)
  | classS (c : ClassDecl α)
  /-- VariableStatement: the initializers of its declaration list. -/
  | varS (inits : List (Option (Expr α)))
  /-- ImportEqualsDeclaration: resolution of the module reference. -/
  | importEqS (res : Option (Resolution α))
  | moduleS (m : ModuleBody α)
  /-- Block, IfStatement, loops, switch, try, ... : every statement kind the
  source routes to `checkCodeBlock`. -/
  | blockS (b : List (BlockNode α))
  /-- Any statement kind the switch in `visitStatement` does not handle
  (function declarations, interfaces, ...). -/
  | otherS

inductive ModuleBody (α : Type) where
  | nestedM (m : ModuleBody α)
  /-- Module block: statements, each with its ambient (`declare`) flag. -/
  | blockM (stmts : List (Bool × Stmt α))

end

/-- A source file: its name, the `hasNoDefaultLib` flag, the decorator
transform flag of the file, and its top-level statements (each paired with
its ambient-modifier flag).  The `isDeclarationFile` property is looked up
through the global `isDecl` flag function of the file system model. -/
structure SourceFile (α : Type) where
  fileName : α
  hasNoDefaultLib : Bool
  hasDecorators : Bool
  statements : List (Bool × Stmt α)

variable {α : Type} [DecidableEq α]

/-! ### The dependency map -/

/-- Empty map (`createMap`). -/
def createMap (α : Type) : DepMap α := []

/-- Lookup of `dependencyMap[file]` (JS object: at most one entry per key). -/
def lookupDep (dm : DepMap α) (k : α) : Option (List α) :=
  match dm with
  | [] => none
  | (k1, v) :: rest => if k = k1 then some v else lookupDep rest k

/-- Store `dependencyMap[file] = list`: replace the entry if the key is
present, otherwise append a new entry. -/
def setDeps (dm : DepMap α) (k : α) (v : List α) : DepMap α :=
  match dm with
  | [] => [(k, v)]
  | (k1, v1) :: rest => if k = k1 then (k, v) :: rest else (k1, v1) :: setDeps rest k v

/-- Dependency list of a file (missing key reads as the empty list). -/
def depsOf (dm : DepMap α) (k : α) : List α :=
  (lookupDep dm k).getD []

/-- There is a recorded dependency edge from `a` to `b` (`a` depends on `b`). -/
def Edge (dm : DepMap α) (a b : α) : Prop :=
  b ∈ depsOf dm a

instance (dm : DepMap α) (a b : α) : Decidable (Edge dm a b) := by
  unfold Edge; infer_instance

/-- Function `addDependency(file, dependent)` of the source: skip self
pairs, create the entry on first use, deduplicate, append. -/
def addDependency (dm : DepMap α) (file dependent : α) : DepMap α :=
  if file = dependent then dm
  else
    let list := (lookupDep dm file).getD []
    if dependent ∈ list then dm
    else setDeps dm file (list ++ [dependent])

/-! ### The dependency graph builder -/

/-- Function `checkDependencyAtLocation(node)`: `node` is modelled by the
resolution the checker would produce for it (`none` when there is no symbol
or no value declaration), `ctx` is the file name `getSourceFileOfNode(node)`
yields for the reference site. -/
def checkDependencyAtLocation (isDecl : α → Bool) (ctx : α)
    (node : Option (Resolution α)) (dm : DepMap α) : DepMap α :=
  match node with
  | none => dm
  | some res =>
    if isDecl res.fileName then dm
    else addDependency dm ctx res.fileName

/-- Function `checkInheriting(node)`: resolve every extends-clause type. -/
def checkInheriting (isDecl : α → Bool) (ctx : α) (c : ClassDecl α)
    (dm : DepMap α) : DepMap α :=
  c.extendsRes.foldl (fun dm r => checkDependencyAtLocation isDecl ctx r dm) dm

mutual

/-- Function `checkExpression(expression)`; the argument is optional
because the source is called with possibly-undefined initializers and
returns immediately on `!expression`. -/
def checkExpression (isDecl : α → Bool) :
    Nat → α → Option (Expr α) → DepMap α → DepMap α
  | 0, _, _, dm => dm
  | _ + 1, _, none, dm => dm
  | fuel + 1, ctx, some e, dm =>
    match e with
    | .callE callee args => checkCallExpression isDecl fuel ctx callee args dm
    | .identE res => checkDependencyAtLocation isDecl ctx res dm
    | .objectE props => checkObjectLiteralExpression isDecl fuel ctx props dm
    | .elementE objRes => checkDependencyAtLocation isDecl ctx objRes dm
    | .arrayE elems =>
      elems.foldl (fun dm el => checkExpression isDecl fuel ctx (some el) dm) dm
    | .templateE spans =>
      spans.foldl (fun dm sp => checkExpression isDecl fuel ctx (some sp) dm) dm
    | .parenE inner => checkExpression isDecl fuel ctx (some inner) dm
    | .binaryE l r =>
      checkExpression isDecl fuel ctx (some r)
        (checkExpression isDecl fuel ctx (some l) dm)
    | .unaryE operand => checkExpression isDecl fuel ctx (some operand) dm
    | .deleteE inner => checkExpression isDecl fuel ctx (some inner) dm
    | .functionExprE _ => dm
    | .otherE => dm

/-- Function `checkObjectLiteralExpression(objectLiteral)`. -/
def checkObjectLiteralExpression (isDecl : α → Bool) :
    Nat → α → List (ObjectProp α) → DepMap α → DepMap α
  | 0, _, _, dm => dm
  | fuel + 1, ctx, props, dm =>
    props.foldl (fun dm p =>
      match p with
      | .propAssign init => checkExpression isDecl fuel ctx (some init) dm
      | .shorthandAssign init => checkExpression isDecl fuel ctx init dm
      | .spreadAssign e => checkExpression isDecl fuel ctx (some e) dm
      | .otherProp => dm) dm

/-- Function `checkCallExpression(callExpression)`: visit the arguments,
then dispatch on the callee.  A resolved identifier or property access adds
an edge and recurses into a function body or a class instantiation; the
recursion happens in the declaring file, so the context switches to
`sourceFile.fileName` of the resolution. -/
def checkCallExpression (isDecl : α → Bool) :
    Nat → α → Expr α → List (Expr α) → DepMap α → DepMap α
  | 0, _, _, _, dm => dm
  | fuel + 1, ctx, callee, args, dm =>
    let dm := args.foldl (fun dm a => checkExpression isDecl fuel ctx (some a) dm) dm
    match callee with
    | .functionExprE body => checkCodeBlock isDecl fuel ctx body dm
    | .identE res =>
      match res with
      | none => dm
      | some r =>
        if isDecl r.fileName then dm
        else
          let dm := addDependency dm ctx r.fileName
          match r.decl with
          | .functionDecl body => checkCodeBlock isDecl fuel r.fileName body dm
          | .classD c => checkClassInstantiation isDecl fuel r.fileName c dm
          | .otherDecl => dm
    | _ => dm

/-- Function `checkClassInstantiation(node)`: non-static property
initializers and the constructor body. -/
def checkClassInstantiation (isDecl : α → Bool) :
    Nat → α → ClassDecl α → DepMap α → DepMap α
  | 0, _, _, dm => dm
  | fuel + 1, ctx, c, dm =>
    c.members.foldl (fun dm m =>
      if m.isStatic then dm
      else
        match m.body with
        | .propertyMember init => checkExpression isDecl fuel ctx init dm
        | .ctorMember body => checkCodeBlock isDecl fuel ctx body dm
        | .otherMember => dm) dm

/-- Function `checkCodeBlock(block)`: `forEachChild(block, visit)`. -/
def checkCodeBlock (isDecl : α → Bool) :
    Nat → α → List (BlockNode α) → DepMap α → DepMap α
  | 0, _, _, dm => dm
  | fuel + 1, ctx, block, dm =>
    block.foldl (fun dm n => checkBlockNode isDecl fuel ctx n dm) dm

/-- The inner `visit` function of `checkCodeBlock`. -/
def checkBlockNode (isDecl : α → Bool) :
    Nat → α → BlockNode α → DepMap α → DepMap α
  | 0, _, _, dm => dm
  | fuel + 1, ctx, node, dm =>
    match node with
    | .varNode inits =>
      inits.foldl (fun dm i => checkExpression isDecl fuel ctx i dm) dm
    | .exprNode e => checkExpression isDecl fuel ctx (some e) dm
    | .otherNode children =>
      children.foldl (fun dm c => checkBlockNode isDecl fuel ctx c dm) dm

end

/-- Function `checkStaticMember(node)`: static property initializers. -/
def checkStaticMember (isDecl : α → Bool) (fuel : Nat) (ctx : α)
    (c : ClassDecl α) (dm : DepMap α) : DepMap α :=
  c.members.foldl (fun dm m =>
    if m.isStatic then
      match m.body with
      | .propertyMember init => checkExpression isDecl fuel ctx init dm
      | _ => dm
    else dm) dm

/-- Function `checkDecorators(decorators)`. -/
def checkDecorators (isDecl : α → Bool) (fuel : Nat) (ctx : α)
    (decorators : List (Expr α)) (dm : DepMap α) : DepMap α :=
  decorators.foldl (fun dm d => checkExpression isDecl fuel ctx (some d) dm) dm

/-- Function `checkClassDecorators(node)`: class decorators, member
decorators (accessor pairing resolved at the AST level), parameter
decorators of function-like members. -/
def checkClassDecorators (isDecl : α → Bool) (fuel : Nat) (ctx : α)
    (c : ClassDecl α) (dm : DepMap α) : DepMap α :=
  let dm := checkDecorators isDecl fuel ctx c.decorators dm
  c.members.foldl (fun dm m =>
    let dm := checkDecorators isDecl fuel ctx m.decorators dm
    checkDecorators isDecl fuel ctx m.paramDecorators dm) dm

mutual

/-- Function `visitStatement(statement, hasDecorators)`. -/
def visitStatement (isDecl : α → Bool) :
    Nat → Bool → α → Stmt α → DepMap α → DepMap α
  | 0, _, _, _, dm => dm
  | fuel + 1, hasDecorators, ctx, s, dm =>
    match s with
    | .exprS e => checkExpression isDecl fuel ctx (some e) dm
    | .classS c =>
      let dm := checkInheriting isDecl ctx c dm
      let dm := checkStaticMember isDecl fuel ctx c dm
      if hasDecorators then checkClassDecorators isDecl fuel ctx c dm else dm
    | .varS inits =>
      inits.foldl (fun dm i => checkExpression isDecl fuel ctx i dm) dm
    | .importEqS res => checkDependencyAtLocation isDecl ctx res dm
    | .moduleS m => visitModule isDecl fuel hasDecorators ctx m dm
    | .blockS b => checkCodeBlock isDecl fuel ctx b dm
    | .otherS => dm

/-- Function `visitModule(node, hasDecorators)`; the recursive call on a
nested module declaration passes no `hasDecorators` argument in the source
(undefined, hence falsy), which the embedding renders as `false`. -/
def visitModule (isDecl : α → Bool) :
    Nat → Bool → α → ModuleBody α → DepMap α → DepMap α
  | 0, _, _, _, dm => dm
  | fuel + 1, hasDecorators, ctx, m, dm =>
    match m with
    | .nestedM inner => visitModule isDecl fuel false ctx inner dm
    | .blockM stmts =>
      stmts.foldl (fun dm s =>
        if s.1 then dm else visitStatement isDecl fuel hasDecorators ctx s.2 dm) dm

end

/-- Function `visitFile(sourceFile)`: top-level statements, skipping the
ambient ones. -/
def visitFile (isDecl : α → Bool) (fuel : Nat) (sf : SourceFile α)
    (dm : DepMap α) : DepMap α :=
  sf.statements.foldl (fun dm s =>
    if s.1 then dm else visitStatement isDecl fuel sf.hasDecorators sf.fileName s.2 dm) dm

mutual

/-- Size of an expression tree (used only to pick a sufficient fuel). -/
def sizeE : Expr α → Nat
  | .callE callee args => 1 + sizeE callee + sizeEL args
  | .identE r => 1 + sizeRO r
  | .functionExprE body => 1 + sizeBL body
  | .objectE props => 1 + sizePL props
  | .elementE objRes => 1 + sizeRO objRes
  | .arrayE elems => 1 + sizeEL elems
  | .templateE spans => 1 + sizeEL spans
  | .parenE e => 1 + sizeE e
  | .binaryE l r => 1 + sizeE l + sizeE r
  | .unaryE operand => 1 + sizeE operand
  | .deleteE e => 1 + sizeE e
  | .otherE => 1

def sizeEO : Option (Expr α) → Nat
  | none => 1
  | some e => 1 + sizeE e

def sizeEL : List (Expr α) → Nat
  | [] => 1
  | e :: rest => 1 + sizeE e + sizeEL rest

def sizeEOL : List (Option (Expr α)) → Nat
  | [] => 1
  | e :: rest => 1 + sizeEO e + sizeEOL rest

def sizeP : ObjectProp α → Nat
  | .propAssign init => 1 + sizeE init
  | .shorthandAssign init => 1 + sizeEO init
  | .spreadAssign e => 1 + sizeE e
  | .otherProp => 1

def sizePL : List (ObjectProp α) → Nat
  | [] => 1
  | p :: rest => 1 + sizeP p + sizePL rest

def sizeB : BlockNode α → Nat
  | .varNode inits => 1 + sizeEOL inits
  | .exprNode e => 1 + sizeE e
  | .otherNode children => 1 + sizeBL children

def sizeBL : List (BlockNode α) → Nat
  | [] => 1
  | n :: rest => 1 + sizeB n + sizeBL rest

def sizeR : Resolution α → Nat
  | .mk _ d => 1 + sizeD d

def sizeRO : Option (Resolution α) → Nat
  | none => 1
  | some r => 1 + sizeR r

def sizeD : DeclInfo α → Nat
  | .functionDecl body => 1 + sizeBL body
  | .classD c => 1 + sizeC c
  | .otherDecl => 1

def sizeC : ClassDecl α → Nat
  | .mk extendsRes decorators members =>
    1 + sizeROL extendsRes + sizeEL decorators + sizeML members

def sizeROL : List (Option (Resolution α)) → Nat
  | [] => 1
  | r :: rest => 1 + sizeRO r + sizeROL rest

def sizeM : ClassMember α → Nat
  | .mk _ decorators paramDecorators body =>
    1 + sizeEL decorators + sizeEL paramDecorators + sizeMB body

def sizeML : List (ClassMember α) → Nat
  | [] => 1
  | m :: rest => 1 + sizeM m + sizeML rest

def sizeMB : MemberBody α → Nat
  | .propertyMember init => 1 + sizeEO init
  | .ctorMember body => 1 + sizeBL body
  | .otherMember => 1

end

mutual

def sizeS : Stmt α → Nat
  | .exprS e => 1 + sizeE e
  | .classS c => 1 + sizeC c
  | .varS inits => 1 + sizeEOL inits
  | .importEqS res => 1 + sizeRO res
  | .moduleS m => 1 + sizeMod m
  | .blockS b => 1 + sizeBL b
  | .otherS => 1

def sizeMod : ModuleBody α → Nat
  | .nestedM m => 1 + sizeMod m
  | .blockM stmts => 1 + sizeSL stmts

def sizeSL : List (Bool × Stmt α) → Nat
  | [] => 1
  | s :: rest => 1 + sizeS s.2 + sizeSL rest

end

/-- Fuel for the builder walk: the recursion of the check functions always
descends into a strict subterm of the syntax tree (declaration bodies are
inlined in resolutions), so any fuel above the total size of the input is
sufficient. -/
def buildFuel (sourceFiles : List (SourceFile α)) : Nat :=
  sourceFiles.foldl (fun acc sf => acc + sizeSL sf.statements) 1

/-- Function `buildDependencyMap()`: visit every non-declaration file. -/
def buildDependencyMap (isDecl : α → Bool) (sourceFiles : List (SourceFile α)) :
    DepMap α :=
  sourceFiles.foldl
    (fun dm sf => if isDecl sf.fileName then dm else visitFile isDecl (buildFuel sourceFiles) sf dm)
    (createMap α)

/-! ### The cycle-aware sorter -/

/-- Store a weight (`pathWeightMap[path] = weight`). -/
def setWeight (wm : WeightMap α) (k : α) (v : Nat) : WeightMap α :=
  fun x => if x = k then some v else wm x

/-- All names occurring in dependency lists of the map: the recursion of
`updatePathWeight` only ever descends into such names. -/
def valueNames (dm : DepMap α) : List α :=
  dm.foldr (fun kv acc => kv.2 ++ acc) []

/-- The `for (let parentPath of list)` loop inside `updatePathWeight`:
check the visited path for a cycle, otherwise recurse (through `recur`)
and propagate a found cycle. -/
def upwLoop (recur : WeightMap α → α → Nat → List α → WeightMap α × Option (List α))
    (weight : Nat) (references : List α) :
    List α → WeightMap α → WeightMap α × Option (List α)
  | [], wm => (wm, none)
  | parentPath :: rest, wm =>
    if parentPath ∈ references then
      (wm, some (references ++ [parentPath]))
    else
      match recur wm parentPath (weight + 1) (references ++ [parentPath]) with
      | (wm1, some result) => (wm1, some result)
      | (wm1, none) => upwLoop recur weight references rest wm1

/-- Function `updatePathWeight(path, weight, references)`: returns the
updated weight map together with the circular-reference path, if one was
found (`none` models the `null` return).  The fuel argument makes the
unbounded recursion of the source structural; `upwFuel` below always
suffices. -/
def updatePathWeight (dm : DepMap α) :
    Nat → WeightMap α → α → Nat → List α → WeightMap α × Option (List α)
  | 0, wm, _, _, _ => (wm, none)
  | fuel + 1, wm, path, weight, references =>
    let run : WeightMap α → WeightMap α × Option (List α) := fun wm1 =>
      match lookupDep dm path with
      | none => (wm1, none)
      | some list => upwLoop (updatePathWeight dm fuel) weight references list wm1
    match wm path with
    | none => run (setWeight wm path weight)
    | some w => if w < weight then run (setWeight wm path weight) else (wm, none)

/-- Canonical fuel: one more than the number of dependency-target
occurrences; the visited path grows by a fresh target name at every level
of the recursion, so this bound is never exhausted. -/
def upwFuel (dm : DepMap α) : Nat :=
  (valueNames dm).length + 1

/-- The weight-propagation loop of `sortOnDependency`: declaration files
get the sentinel weight 10000; every other file starts a propagation, and
a discovered cycle aborts the loop. -/
def sortLoop (isDecl : α → Bool) (dm : DepMap α) :
    List (SourceFile α) → WeightMap α → WeightMap α × Option (List α)
  | [], wm => (wm, none)
  | sf :: rest, wm =>
    if isDecl sf.fileName then
      sortLoop isDecl dm rest (setWeight wm sf.fileName 10000)
    else
      match updatePathWeight dm (upwFuel dm) wm sf.fileName 0 [sf.fileName] with
      | (wm1, some references) => (wm1, some references)
      | (wm1, none) => sortLoop isDecl dm rest wm1

/-- Stable insertion into a list sorted by descending key: the new element
goes after every element of greater-or-equal key. -/
def insertDesc {β : Type} (key : β → Nat) (x : β) : List β → List β
  | [] => [x]
  | y :: ys => if key y < key x then x :: y :: ys else y :: insertDesc key x ys

/-- Stable sort by descending key, modelling the JavaScript stable
`Array#sort` with comparator `pathWeightMap[b] - pathWeightMap[a]`
(a stable sort under a total preorder comparator has a unique result, so
the choice of stable algorithm is immaterial). -/
def sortByWeightDesc {β : Type} (key : β → Nat) (l : List β) : List β :=
  l.foldl (fun acc x => insertDesc key x acc) []

/-- Function `sortOnDependency()`.  The embedding returns, besides the
`SortingResult`, the re-sorted `sourceFiles` array and the rewritten
`rootFileNames` array (both are mutated in place by the source); on a
cycle both are returned unchanged. -/
def sortOnDependency (isDecl : α → Bool) (sourceFiles : List (SourceFile α))
    (rootFileNames : List α) (dm : DepMap α) :
    SortingResult α × List (SourceFile α) × List α :=
  let r := sortLoop isDecl dm sourceFiles (fun _ => none)
  let circularReferences := r.2.getD []
  if circularReferences.length = 0 then
    let sorted := sortByWeightDesc (fun sf => (r.1 sf.fileName).getD 0) sourceFiles
    let newRoots := sorted.map (fun sf => sf.fileName)
    let sortedFileNames :=
      (sorted.filter (fun sf => !sf.hasNoDefaultLib)).map (fun sf => sf.fileName)
    ({ sortedFileNames := sortedFileNames, circularReferences := circularReferences },
      sorted, newRoots)
  else
    ({ sortedFileNames := [], circularReferences := circularReferences },
      sourceFiles, rootFileNames)

/-- Function `reorderSourceFiles(program)`: build the dependency map from
the (non-declaration) source files, then sort. -/
def reorderSourceFiles (isDecl : α → Bool) (sourceFiles : List (SourceFile α))
    (rootFileNames : List α) :
    SortingResult α × List (SourceFile α) × List α :=
  sortOnDependency isDecl sourceFiles rootFileNames (buildDependencyMap isDecl sourceFiles)

/-! ### Basic lemmas about the dependency map -/

theorem lookupDep_setDeps (dm : DepMap α) (k : α) (v : List α) (x : α) :
    lookupDep (setDeps dm k v) x = if x = k then some v else lookupDep dm x := by
  induction dm with
  | nil => by_cases hx : x = k <;> simp [setDeps, lookupDep, hx]
  | cons kv rest ih =>
    obtain ⟨k1, v1⟩ := kv
    by_cases hk : k = k1
    · subst hk
      by_cases hx : x = k <;> simp [setDeps, lookupDep, hx]
    · by_cases hx : x = k1
      · subst hx
        have hxk : ¬ x = k := fun h => hk h.symm
        simp [setDeps, lookupDep, hk, hxk]
      · simp [setDeps, lookupDep, hk, hx, ih]

theorem subset_valueNames_of_lookupDep {dm : DepMap α} {k : α} {l : List α}
    (h : lookupDep dm k = some l) : l ⊆ valueNames dm := by
  induction dm with
  | nil => simp [lookupDep] at h
  | cons kv rest ih =>
    simp only [lookupDep] at h
    by_cases hk : k = kv.1
    · simp [hk] at h
      subst h
      intro x hx
      simp [valueNames, List.foldr]
      exact Or.inl hx
    · simp [hk] at h
      intro x hx
      have := ih h hx
      simp [valueNames, List.foldr] at this ⊢
      exact Or.inr this

/-- Characterisation of the edges after `addDependency`: everything that
was there before, plus possibly the new non-self pair. -/
theorem edge_addDependency {dm : DepMap α} {f d s t : α}
    (h : Edge (addDependency dm f d) s t) :
    Edge dm s t ∨ (s = f ∧ t = d ∧ f ≠ d) := by
  unfold addDependency at h
  by_cases hfd : f = d
  · simp [hfd] at h
    exact Or.inl h
  · simp [hfd] at h
    by_cases hmem : d ∈ (lookupDep dm f).getD []
    · simp [hmem] at h
      exact Or.inl h
    · simp [hmem] at h
      unfold Edge depsOf at h ⊢
      rw [lookupDep_setDeps] at h
      by_cases hs : s = f
      · subst hs
        simp at h
        rcases h with h1 | h1
        · exact Or.inl h1
        · exact Or.inr ⟨rfl, h1, hfd⟩
      · simp [hs] at h
        exact Or.inl h

/-- The pair recorded by `addDependency` is present afterwards (when it is
not a self pair). -/
theorem edge_addDependency_self {dm : DepMap α} {f d : α} (hfd : f ≠ d) :
    Edge (addDependency dm f d) f d := by
  unfold addDependency
  by_cases hmem : d ∈ (lookupDep dm f).getD []
  · simp [hfd, hmem]
    exact hmem
  · simp [hfd, hmem]
    unfold Edge depsOf
    rw [lookupDep_setDeps]
    simp

/-- Edges other than the recorded pair are untouched by `addDependency`. -/
theorem edge_addDependency_of_edge {dm : DepMap α} {f d s t : α}
    (h : Edge dm s t) : Edge (addDependency dm f d) s t := by
  unfold addDependency
  by_cases hfd : f = d
  · simpa [hfd]
  · by_cases hmem : d ∈ (lookupDep dm f).getD []
    · simpa [hfd, hmem]
    · simp [hfd, hmem]
      unfold Edge depsOf at h ⊢
      rw [lookupDep_setDeps]
      by_cases hs : s = f
      · subst hs
        simp
        left
        simpa [depsOf] using h
      · simpa [hs]

/-! ### Stable descending sort: permutation, sortedness, stability -/

theorem insertDesc_perm {β : Type} (key : β → Nat) (x : β) (l : List β) :
    (insertDesc key x l).Perm (x :: l) := by
  induction l with
  | nil => simp [insertDesc]
  | cons y ys ih =>
    by_cases h : key y < key x
    · simp [insertDesc, h]
    · simp only [insertDesc, if_neg h]
      exact (ih.cons y).trans (List.Perm.swap x y ys)

theorem sortByWeightDesc_perm {β : Type} (key : β → Nat) (l : List β) :
    (sortByWeightDesc key l).Perm l := by
  suffices h : ∀ acc : List β,
      (l.foldl (fun acc x => insertDesc key x acc) acc).Perm (l ++ acc) by
    simpa [sortByWeightDesc] using h []
  induction l with
  | nil => simp
  | cons y ys ih =>
    intro acc
    simp only [List.foldl_cons]
    have h1 : (ys.foldl (fun acc x => insertDesc key x acc) (insertDesc key y acc)).Perm
        (ys ++ insertDesc key y acc) := ih _
    have h2 : (ys ++ insertDesc key y acc).Perm (ys ++ y :: acc) :=
      List.Perm.append_left ys (insertDesc_perm key y acc)
    have h3 : (ys ++ y :: acc).Perm (y :: (ys ++ acc)) := List.perm_middle
    simpa using h1.trans (h2.trans h3)

theorem mem_insertDesc {β : Type} {key : β → Nat} {x z : β} {l : List β} :
    z ∈ insertDesc key x l ↔ z = x ∨ z ∈ l := by
  rw [(insertDesc_perm key x l).mem_iff]
  simp

/-- Descending order by key. -/
def SortedDesc {β : Type} (key : β → Nat) (l : List β) : Prop :=
  l.Pairwise (fun a b => key b ≤ key a)

theorem insertDesc_sorted {β : Type} {key : β → Nat} {x : β} {l : List β}
    (h : SortedDesc key l) : SortedDesc key (insertDesc key x l) := by
  induction l with
  | nil => simp [insertDesc, SortedDesc]
  | cons y ys ih =>
    rcases (List.pairwise_cons.1 h) with ⟨hy, hys⟩
    by_cases hlt : key y < key x
    · simp only [insertDesc, if_pos hlt]
      refine List.pairwise_cons.2 ⟨?_, h⟩
      intro z hz
      rcases List.mem_cons.1 hz with rfl | hz
      · exact Nat.le_of_lt hlt
      · exact Nat.le_trans (hy z hz) (Nat.le_of_lt hlt)
    · simp only [insertDesc, if_neg hlt]
      refine List.pairwise_cons.2 ⟨?_, ih hys⟩
      intro z hz
      rcases mem_insertDesc.1 hz with rfl | hz
      · exact Nat.le_of_not_lt hlt
      · exact hy z hz

theorem sortByWeightDesc_sorted {β : Type} (key : β → Nat) (l : List β) :
    SortedDesc key (sortByWeightDesc key l) := by
  suffices h : ∀ acc : List β, SortedDesc key acc →
      SortedDesc key (l.foldl (fun acc x => insertDesc key x acc) acc) by
    exact h [] (by simp [SortedDesc])
  induction l with
  | nil => intro acc hacc; simpa using hacc
  | cons y ys ih =>
    intro acc hacc
    simpa using ih (insertDesc key y acc) (insertDesc_sorted hacc)

theorem filter_eq_nil_of_lt {β : Type} {key : β → Nat} {k : Nat} {l : List β}
    (h : ∀ z ∈ l, key z < k) : l.filter (fun z => key z == k) = [] := by
  induction l with
  | nil => rfl
  | cons y ys ih =>
    have hy : (key y == k) = false := by
      simp only [beq_eq_false_iff_ne, ne_eq]
      exact Nat.ne_of_lt (h y (by simp))
    rw [List.filter_cons, hy]
    simp only [Bool.false_eq_true, if_false]
    exact ih (fun z hz => h z (by simp [hz]))

theorem filter_insertDesc {β : Type} {key : β → Nat} {k : Nat} {x : β} {l : List β}
    (h : SortedDesc key l) :
    (insertDesc key x l).filter (fun z => key z == k)
      = if key x = k then l.filter (fun z => key z == k) ++ [x]
        else l.filter (fun z => key z == k) := by
  induction l with
  | nil => by_cases hx : key x = k <;> simp [insertDesc, hx]
  | cons y ys ih =>
    rcases (List.pairwise_cons.1 h) with ⟨hy, hys⟩
    by_cases hlt : key y < key x
    · simp only [insertDesc, if_pos hlt]
      by_cases hx : key x = k
      · have hnil : (y :: ys).filter (fun z => key z == k) = [] := by
          refine filter_eq_nil_of_lt ?_
          intro z hz
          rcases List.mem_cons.1 hz with rfl | hz
          · exact hx ▸ hlt
          · exact Nat.lt_of_le_of_lt (hy z hz) (hx ▸ hlt)
        simp [hx, hnil]
      · have hxne : (key x == k) = false := by simpa using hx
        simp [hx, List.filter, hxne]
    · simp only [insertDesc, if_neg hlt]
      by_cases hx : key x = k <;> by_cases hyk : (key y == k) = true <;>
        simp [hx, List.filter, hyk, ih hys]

theorem filter_sortByWeightDesc {β : Type} (key : β → Nat) (k : Nat) (l : List β) :
    (sortByWeightDesc key l).filter (fun z => key z == k)
      = l.filter (fun z => key z == k) := by
  suffices h : ∀ acc : List β, SortedDesc key acc →
      (l.foldl (fun acc x => insertDesc key x acc) acc).filter (fun z => key z == k)
        = acc.filter (fun z => key z == k) ++ l.filter (fun z => key z == k) by
    simpa [sortByWeightDesc] using h [] (by simp [SortedDesc])
  induction l with
  | nil => intro acc hacc; simp
  | cons y ys ih =>
    intro acc hacc
    have hstep := @filter_insertDesc β key k y acc hacc
    by_cases hyk : key y = k
    · simp only [List.foldl_cons]
      rw [ih (insertDesc key y acc) (insertDesc_sorted hacc), hstep]
      simp [hyk, List.filter]
    · simp only [List.foldl_cons]
      rw [ih (insertDesc key y acc) (insertDesc_sorted hacc), hstep]
      have hyne : (key y == k) = false := by simpa using hyk
      simp [hyk, List.filter, hyne]


/-! ### A sequence of addDependency steps

Every modification of the dependency map made by the builder goes through
`addDependency`; `BuilderSteps P` records such a sequence whose recorded
pairs all satisfy `P`.  Invariants of `addDependency` (no self pair, no
duplicate, `P` on every pair) then transfer to the whole builder. -/

inductive BuilderSteps (P : α → α → Prop) : DepMap α → DepMap α → Prop where
  | refl {dm : DepMap α} : BuilderSteps P dm dm
  | snoc {dm dm1 : DepMap α} {f d : α} (h : BuilderSteps P dm dm1) (hp : P f d) :
      BuilderSteps P dm (addDependency dm1 f d)

theorem steps_trans {P : α → α → Prop} {dm1 dm2 dm3 : DepMap α}
    (h1 : BuilderSteps P dm1 dm2) (h2 : BuilderSteps P dm2 dm3) :
    BuilderSteps P dm1 dm3 := by
  induction h2 with
  | refl => exact h1
  | snoc h hp ih => exact BuilderSteps.snoc ih hp

theorem BuilderSteps.foldl {P : α → α → Prop} {β : Type _} (f : DepMap α → β → DepMap α)
    (l : List β) (h : ∀ (dm : DepMap α) (b : β), b ∈ l → BuilderSteps P dm (f dm b)) :
    ∀ dm : DepMap α, BuilderSteps P dm (l.foldl f dm) := by
  induction l with
  | nil => intro dm; exact BuilderSteps.refl
  | cons b rest ih =>
    intro dm
    refine steps_trans (h dm b (by simp)) ?_
    exact ih (fun dm c hc => h dm c (by simp [hc])) (f dm b)

theorem edge_of_steps {P : α → α → Prop} {dm dm1 : DepMap α}
    (h : BuilderSteps P dm dm1) {s t : α} (he : Edge dm1 s t) :
    Edge dm s t ∨ (P s t ∧ s ≠ t) := by
  induction h with
  | refl => exact Or.inl he
  | snoc h hp ih =>
    rcases edge_addDependency he with h1 | ⟨rfl, rfl, hne⟩
    · exact ih h1
    · exact Or.inr ⟨hp, hne⟩

/-- Effect of `addDependency` on a single dependency list. -/
theorem depsOf_addDependency (dm : DepMap α) (f d x : α) :
    depsOf (addDependency dm f d) x = depsOf dm x
    ∨ (x = f ∧ f ≠ d ∧ d ∉ depsOf dm f
        ∧ depsOf (addDependency dm f d) x = depsOf dm f ++ [d]) := by
  unfold addDependency
  by_cases hfd : f = d
  · simp [hfd]
  · by_cases hmem : d ∈ (lookupDep dm f).getD []
    · simp [hfd, hmem]
    · simp only [hfd, if_false, if_neg hmem]
      by_cases hx : x = f
      · subst hx
        right
        refine ⟨rfl, hfd, by simpa [depsOf] using hmem, ?_⟩
        simp [depsOf, lookupDep_setDeps]
      · left
        simp [depsOf, lookupDep_setDeps, hx]

theorem nodup_of_steps {P : α → α → Prop} {dm dm1 : DepMap α}
    (h : BuilderSteps P dm dm1) (hd : ∀ x, (depsOf dm x).Nodup) :
    ∀ x, (depsOf dm1 x).Nodup := by
  induction h with
  | refl => exact hd
  | @snoc dmb f d hsteps hp ih =>
    intro x
    rcases depsOf_addDependency dmb f d x with heq | ⟨hxf, hfd, hmem, heq⟩
    · rw [heq]; exact ih x
    · subst hxf
      rw [heq]
      refine List.Nodup.append (ih x) (by simp) ?_
      intro a ha hb
      simp at hb
      subst hb
      exact hmem ha

theorem no_self_of_steps {P : α → α → Prop} {dm dm1 : DepMap α}
    (h : BuilderSteps P dm dm1) (hd : ∀ x, x ∉ depsOf dm x) :
    ∀ x, x ∉ depsOf dm1 x := by
  induction h with
  | refl => exact hd
  | @snoc dmb f d hsteps hp ih =>
    intro x
    rcases depsOf_addDependency dmb f d x with heq | ⟨hxf, hfd, hmem, heq⟩
    · rw [heq]; exact ih x
    · subst hxf
      rw [heq]
      intro hx
      rcases List.mem_append.1 hx with hx | hx
      · exact ih x hx
      · simp at hx
        exact hfd hx

/-- Pair constraint recorded by the builder: both endpoints are
non-declaration files. -/
def DeclSafe (isDecl : α → Bool) (s t : α) : Prop :=
  isDecl s = false ∧ isDecl t = false

theorem checkDependencyAtLocation_steps (isDecl : α → Bool) (ctx : α)
    (node : Option (Resolution α)) (dm : DepMap α) (hctx : isDecl ctx = false) :
    BuilderSteps (DeclSafe isDecl) dm (checkDependencyAtLocation isDecl ctx node dm) := by
  cases node with
  | none => exact BuilderSteps.refl
  | some res =>
    by_cases hr : isDecl res.fileName = true
    · simp [checkDependencyAtLocation, hr]
      exact BuilderSteps.refl
    · simp only [Bool.not_eq_true] at hr
      simp [checkDependencyAtLocation, hr]
      exact BuilderSteps.snoc BuilderSteps.refl ⟨hctx, hr⟩

theorem checkInheriting_steps (isDecl : α → Bool) (ctx : α) (c : ClassDecl α)
    (dm : DepMap α) (hctx : isDecl ctx = false) :
    BuilderSteps (DeclSafe isDecl) dm (checkInheriting isDecl ctx c dm) :=
  BuilderSteps.foldl _ _
    (fun dm r _ => checkDependencyAtLocation_steps isDecl ctx r dm hctx) dm

theorem check_steps (isDecl : α → Bool) : ∀ fuel : Nat,
    (∀ (ctx : α) (e : Option (Expr α)) (dm : DepMap α), isDecl ctx = false →
      BuilderSteps (DeclSafe isDecl) dm (checkExpression isDecl fuel ctx e dm))
    ∧ (∀ (ctx : α) (props : List (ObjectProp α)) (dm : DepMap α), isDecl ctx = false →
      BuilderSteps (DeclSafe isDecl) dm (checkObjectLiteralExpression isDecl fuel ctx props dm))
    ∧ (∀ (ctx : α) (callee : Expr α) (args : List (Expr α)) (dm : DepMap α), isDecl ctx = false →
      BuilderSteps (DeclSafe isDecl) dm (checkCallExpression isDecl fuel ctx callee args dm))
    ∧ (∀ (ctx : α) (c : ClassDecl α) (dm : DepMap α), isDecl ctx = false →
      BuilderSteps (DeclSafe isDecl) dm (checkClassInstantiation isDecl fuel ctx c dm))
    ∧ (∀ (ctx : α) (b : List (BlockNode α)) (dm : DepMap α), isDecl ctx = false →
      BuilderSteps (DeclSafe isDecl) dm (checkCodeBlock isDecl fuel ctx b dm))
    ∧ (∀ (ctx : α) (n : BlockNode α) (dm : DepMap α), isDecl ctx = false →
      BuilderSteps (DeclSafe isDecl) dm (checkBlockNode isDecl fuel ctx n dm)) := by
  intro fuel
  induction fuel with
  | zero =>
    refine ⟨?_, ?_, ?_, ?_, ?_, ?_⟩ <;> intros <;>
      simp only [checkExpression, checkObjectLiteralExpression, checkCallExpression,
        checkClassInstantiation, checkCodeBlock, checkBlockNode] <;>
      exact BuilderSteps.refl
  | succ fuel ih =>
    obtain ⟨ihE, ihO, ihC, ihI, ihB, ihN⟩ := ih
    refine ⟨?_, ?_, ?_, ?_, ?_, ?_⟩
    · intro ctx e dm hctx
      match e with
      | none => simp only [checkExpression]; exact BuilderSteps.refl
      | some (.callE callee args) =>
        simp only [checkExpression]
        exact ihC ctx callee args dm hctx
      | some (.identE res) =>
        simp only [checkExpression]
        exact checkDependencyAtLocation_steps isDecl ctx res dm hctx
      | some (.objectE props) =>
        simp only [checkExpression]
        exact ihO ctx props dm hctx
      | some (.elementE objRes) =>
        simp only [checkExpression]
        exact checkDependencyAtLocation_steps isDecl ctx objRes dm hctx
      | some (.arrayE elems) =>
        simp only [checkExpression]
        exact BuilderSteps.foldl _ _ (fun dm el _ => ihE ctx (some el) dm hctx) dm
      | some (.templateE spans) =>
        simp only [checkExpression]
        exact BuilderSteps.foldl _ _ (fun dm sp _ => ihE ctx (some sp) dm hctx) dm
      | some (.parenE inner) =>
        simp only [checkExpression]
        exact ihE ctx (some inner) dm hctx
      | some (.binaryE l r) =>
        simp only [checkExpression]
        exact steps_trans (ihE ctx (some l) dm hctx) (ihE ctx (some r) _ hctx)
      | some (.unaryE operand) =>
        simp only [checkExpression]
        exact ihE ctx (some operand) dm hctx
      | some (.deleteE inner) =>
        simp only [checkExpression]
        exact ihE ctx (some inner) dm hctx
      | some (.functionExprE body) =>
        simp only [checkExpression]
        exact BuilderSteps.refl
      | some .otherE =>
        simp only [checkExpression]
        exact BuilderSteps.refl
    · intro ctx props dm hctx
      simp only [checkObjectLiteralExpression]
      refine BuilderSteps.foldl _ _ (fun dm p _ => ?_) dm
      match p with
      | .propAssign init => exact ihE ctx (some init) dm hctx
      | .shorthandAssign init => exact ihE ctx init dm hctx
      | .spreadAssign e => exact ihE ctx (some e) dm hctx
      | .otherProp => exact BuilderSteps.refl
    · intro ctx callee args dm hctx
      simp only [checkCallExpression]
      refine steps_trans
        (BuilderSteps.foldl (fun dm a => checkExpression isDecl fuel ctx (some a) dm) args
          (fun dm a _ => ihE ctx (some a) dm hctx) dm) ?_
      match callee with
      | .functionExprE body => exact ihB ctx body _ hctx
      | .identE none => exact BuilderSteps.refl
      | .identE (some r) =>
        by_cases hr : isDecl r.fileName = true
        · simp only [hr, if_true]
          exact BuilderSteps.refl
        · simp only [Bool.not_eq_true] at hr
          simp only [hr, Bool.false_eq_true, if_false]
          refine steps_trans
            (BuilderSteps.snoc BuilderSteps.refl (⟨hctx, hr⟩ : DeclSafe isDecl ctx r.fileName)) ?_
          match r.decl with
          | .functionDecl body => exact ihB r.fileName body _ hr
          | .classD c => exact ihI r.fileName c _ hr
          | .otherDecl => exact BuilderSteps.refl
      | .callE a b => exact BuilderSteps.refl
      | .objectE p => exact BuilderSteps.refl
      | .elementE o => exact BuilderSteps.refl
      | .arrayE a => exact BuilderSteps.refl
      | .templateE t => exact BuilderSteps.refl
      | .parenE e => exact BuilderSteps.refl
      | .binaryE a b => exact BuilderSteps.refl
      | .unaryE a => exact BuilderSteps.refl
      | .deleteE a => exact BuilderSteps.refl
      | .otherE => exact BuilderSteps.refl
    · intro ctx c dm hctx
      simp only [checkClassInstantiation]
      refine BuilderSteps.foldl _ _ (fun dm m _ => ?_) dm
      by_cases hs : m.isStatic = true
      · simp only [hs, if_true]; exact BuilderSteps.refl
      · simp only [Bool.not_eq_true] at hs
        simp only [hs, Bool.false_eq_true, if_false]
        match m.body with
        | .propertyMember init => exact ihE ctx init dm hctx
        | .ctorMember body => exact ihB ctx body dm hctx
        | .otherMember => exact BuilderSteps.refl
    · intro ctx b dm hctx
      simp only [checkCodeBlock]
      exact BuilderSteps.foldl _ _ (fun dm n _ => ihN ctx n dm hctx) dm
    · intro ctx n dm hctx
      match n with
      | .varNode inits =>
        simp only [checkBlockNode]
        exact BuilderSteps.foldl _ _ (fun dm i _ => ihE ctx i dm hctx) dm
      | .exprNode e =>
        simp only [checkBlockNode]
        exact ihE ctx (some e) dm hctx
      | .otherNode children =>
        simp only [checkBlockNode]
        exact BuilderSteps.foldl _ _ (fun dm c _ => ihN ctx c dm hctx) dm

theorem checkStaticMember_steps (isDecl : α → Bool) (fuel : Nat) (ctx : α)
    (c : ClassDecl α) (dm : DepMap α) (hctx : isDecl ctx = false) :
    BuilderSteps (DeclSafe isDecl) dm (checkStaticMember isDecl fuel ctx c dm) := by
  unfold checkStaticMember
  refine BuilderSteps.foldl _ _ (fun dm m _ => ?_) dm
  by_cases hs : m.isStatic = true
  · simp only [hs, if_true]
    match m.body with
    | .propertyMember init => exact (check_steps isDecl fuel).1 ctx init dm hctx
    | .ctorMember body => exact BuilderSteps.refl
    | .otherMember => exact BuilderSteps.refl
  · simp only [Bool.not_eq_true] at hs
    simp only [hs, Bool.false_eq_true, if_false]
    exact BuilderSteps.refl

theorem checkDecorators_steps (isDecl : α → Bool) (fuel : Nat) (ctx : α)
    (decorators : List (Expr α)) (dm : DepMap α) (hctx : isDecl ctx = false) :
    BuilderSteps (DeclSafe isDecl) dm (checkDecorators isDecl fuel ctx decorators dm) := by
  unfold checkDecorators
  exact BuilderSteps.foldl _ _
    (fun dm d _ => (check_steps isDecl fuel).1 ctx (some d) dm hctx) dm

theorem checkClassDecorators_steps (isDecl : α → Bool) (fuel : Nat) (ctx : α)
    (c : ClassDecl α) (dm : DepMap α) (hctx : isDecl ctx = false) :
    BuilderSteps (DeclSafe isDecl) dm (checkClassDecorators isDecl fuel ctx c dm) := by
  unfold checkClassDecorators
  refine steps_trans (checkDecorators_steps isDecl fuel ctx c.decorators dm hctx) ?_
  refine BuilderSteps.foldl _ _ (fun dm m _ => ?_) _
  exact steps_trans (checkDecorators_steps isDecl fuel ctx m.decorators dm hctx)
    (checkDecorators_steps isDecl fuel ctx m.paramDecorators _ hctx)

theorem visit_steps (isDecl : α → Bool) : ∀ fuel : Nat,
    (∀ (hasDecorators : Bool) (ctx : α) (s : Stmt α) (dm : DepMap α), isDecl ctx = false →
      BuilderSteps (DeclSafe isDecl) dm (visitStatement isDecl fuel hasDecorators ctx s dm))
    ∧ (∀ (hasDecorators : Bool) (ctx : α) (m : ModuleBody α) (dm : DepMap α), isDecl ctx = false →
      BuilderSteps (DeclSafe isDecl) dm (visitModule isDecl fuel hasDecorators ctx m dm)) := by
  intro fuel
  induction fuel with
  | zero =>
    constructor <;> intros <;>
      simp only [visitStatement, visitModule] <;> exact BuilderSteps.refl
  | succ fuel ih =>
    obtain ⟨ihS, ihM⟩ := ih
    constructor
    · intro hasDecorators ctx s dm hctx
      match s with
      | .exprS e =>
        simp only [visitStatement]
        exact (check_steps isDecl fuel).1 ctx (some e) dm hctx
      | .classS c =>
        simp only [visitStatement]
        refine steps_trans (checkInheriting_steps isDecl ctx c dm hctx) ?_
        refine steps_trans (checkStaticMember_steps isDecl fuel ctx c _ hctx) ?_
        by_cases hd : hasDecorators = true
        · simp only [hd, if_true]
          exact checkClassDecorators_steps isDecl fuel ctx c _ hctx
        · simp only [Bool.not_eq_true] at hd
          simp only [hd, Bool.false_eq_true, if_false]
          exact BuilderSteps.refl
      | .varS inits =>
        simp only [visitStatement]
        exact BuilderSteps.foldl _ _
          (fun dm i _ => (check_steps isDecl fuel).1 ctx i dm hctx) dm
      | .importEqS res =>
        simp only [visitStatement]
        exact checkDependencyAtLocation_steps isDecl ctx res dm hctx
      | .moduleS m =>
        simp only [visitStatement]
        exact ihM hasDecorators ctx m dm hctx
      | .blockS b =>
        simp only [visitStatement]
        exact (check_steps isDecl fuel).2.2.2.2.1 ctx b dm hctx
      | .otherS =>
        simp only [visitStatement]
        exact BuilderSteps.refl
    · intro hasDecorators ctx m dm hctx
      match m with
      | .nestedM inner =>
        simp only [visitModule]
        exact ihM false ctx inner dm hctx
      | .blockM stmts =>
        simp only [visitModule]
        refine BuilderSteps.foldl _ _ (fun dm s _ => ?_) dm
        by_cases ha : s.1 = true
        · simp only [ha, if_true]; exact BuilderSteps.refl
        · simp only [Bool.not_eq_true] at ha
          simp only [ha, Bool.false_eq_true, if_false]
          exact ihS hasDecorators ctx s.2 dm hctx

theorem visitFile_steps (isDecl : α → Bool) (fuel : Nat) (sf : SourceFile α)
    (dm : DepMap α) (hctx : isDecl sf.fileName = false) :
    BuilderSteps (DeclSafe isDecl) dm (visitFile isDecl fuel sf dm) := by
  unfold visitFile
  refine BuilderSteps.foldl _ _ (fun dm s _ => ?_) dm
  by_cases ha : s.1 = true
  · simp only [ha, if_true]; exact BuilderSteps.refl
  · simp only [Bool.not_eq_true] at ha
    simp only [ha, Bool.false_eq_true, if_false]
    exact (visit_steps isDecl fuel).1 sf.hasDecorators sf.fileName s.2 dm hctx

theorem buildDependencyMap_steps (isDecl : α → Bool) (files : List (SourceFile α)) :
    BuilderSteps (DeclSafe isDecl) (createMap α) (buildDependencyMap isDecl files) := by
  unfold buildDependencyMap
  refine BuilderSteps.foldl _ _ (fun dm sf _ => ?_) (createMap α)
  by_cases hd : isDecl sf.fileName = true
  · simp only [hd, if_true]; exact BuilderSteps.refl
  · simp only [Bool.not_eq_true] at hd
    simp only [hd, Bool.false_eq_true, if_false]
    exact visitFile_steps isDecl (buildFuel files) sf dm hd

/-! ### Weight-propagation machinery

The lemmas below analyse runs of `updatePathWeight`: cycle-free runs only
ever raise weights, never touch the visited path except its own start,
assign the start at least its candidate weight, and leave every newly
weighted unit with satisfied outgoing edges; runs that report a cycle
return the visited edge chain extended by one repeated name. -/

/-- Weights never decrease and never disappear. -/
def Mono (wm wm1 : WeightMap α) : Prop :=
  ∀ x v, wm x = some v → ∃ v2, wm1 x = some v2 ∧ v ≤ v2

theorem mono_refl (wm : WeightMap α) : Mono wm wm :=
  fun _ v h => ⟨v, h, Nat.le_refl v⟩

theorem mono_trans {wm1 wm2 wm3 : WeightMap α} (h1 : Mono wm1 wm2) (h2 : Mono wm2 wm3) :
    Mono wm1 wm3 := by
  intro x v h
  obtain ⟨v2, h2x, hle⟩ := h1 x v h
  obtain ⟨v3, h3x, hle2⟩ := h2 x v2 h2x
  exact ⟨v3, h3x, Nat.le_trans hle hle2⟩

theorem Mono.set {wm : WeightMap α} {k : α} {v : Nat}
    (h : wm k = none ∨ ∃ w0, wm k = some w0 ∧ w0 ≤ v) :
    Mono wm (setWeight wm k v) := by
  intro x u hx
  by_cases hk : x = k
  · subst hk
    rcases h with h | ⟨w0, hw0, hle⟩
    · rw [h] at hx; cases hx
    · rw [hw0] at hx
      cases hx
      exact ⟨v, by simp [setWeight], hle⟩
  · exact ⟨u, by simp [setWeight, hk, hx], Nat.le_refl u⟩

/-- Every weight present afterwards is either untouched or belongs to a
unit whose outgoing edges are satisfied in the final map. -/
def Shift (dm : DepMap α) (wm wm1 : WeightMap α) : Prop :=
  ∀ a va, wm1 a = some va →
    wm a = some va ∨ ∀ b ∈ depsOf dm a, ∃ vb, wm1 b = some vb ∧ va + 1 ≤ vb

theorem shift_refl (dm : DepMap α) (wm : WeightMap α) : Shift dm wm wm :=
  fun _ _ h => Or.inl h

theorem shift_trans {dm : DepMap α} {wm1 wm2 wm3 : WeightMap α}
    (h1 : Shift dm wm1 wm2) (h2 : Shift dm wm2 wm3) (hm : Mono wm2 wm3) :
    Shift dm wm1 wm3 := by
  intro a va h
  rcases h2 a va h with h | hsat
  · rcases h1 a va h with h | hsat
    · exact Or.inl h
    · refine Or.inr (fun b hb => ?_)
      obtain ⟨vb, hvb, hle⟩ := hsat b hb
      obtain ⟨vb2, hvb2, hle2⟩ := hm b vb hvb
      exact ⟨vb2, hvb2, Nat.le_trans hle hle2⟩
  · exact Or.inr hsat

/-- The fuel needed by a propagation whose visited path is `references`. -/
def fuelBound (dm : DepMap α) (references : List α) : Nat :=
  (((valueNames dm).dedup).filter (fun x => decide (x ∉ references))).length + 1

theorem length_filter_le_of_imp {β : Type} (p q : β → Bool) (l : List β)
    (h : ∀ x, p x = true → q x = true) :
    (l.filter p).length ≤ (l.filter q).length := by
  induction l with
  | nil => simp
  | cons a l ih =>
    by_cases hp : p a = true
    · simp only [List.filter_cons, hp, h a hp, if_true, List.length_cons]
      exact Nat.succ_le_succ ih
    · simp only [Bool.not_eq_true] at hp
      by_cases hq : q a = true
      · simp only [List.filter_cons, hp, hq, if_true, Bool.false_eq_true, if_false,
          List.length_cons]
        exact Nat.le_trans ih (Nat.le_succ _)
      · simp only [Bool.not_eq_true] at hq
        simp only [List.filter_cons, hp, hq, Bool.false_eq_true, if_false]
        exact ih

theorem length_filter_not_mem_lt {l refs : List α} {q : α}
    (hql : q ∈ l) (hqr : q ∉ refs) :
    (l.filter (fun x => decide (x ∉ refs ++ [q]))).length
      < (l.filter (fun x => decide (x ∉ refs))).length := by
  induction l with
  | nil => cases hql
  | cons a l ih =>
    have himp : ∀ x : α, (decide (x ∉ refs ++ [q]) = true) → (decide (x ∉ refs) = true) := by
      intro x hx
      simp at hx ⊢
      exact hx.1
    rcases List.mem_cons.1 hql with rfl | hal
    · have h1 : (decide (q ∉ refs ++ [q]) : Bool) = false := by simp
      have h2 : (decide (q ∉ refs) : Bool) = true := by simpa using hqr
      simp only [List.filter_cons, h1, h2, if_true, Bool.false_eq_true, if_false,
        List.length_cons]
      exact Nat.lt_succ_of_le (length_filter_le_of_imp _ _ l himp)
    · by_cases h1 : (decide (a ∉ refs ++ [q]) : Bool) = true
      · have h2 : (decide (a ∉ refs) : Bool) = true := himp a h1
        simp only [List.filter_cons, h1, h2, if_true, List.length_cons]
        exact Nat.succ_lt_succ (ih hal)
      · simp only [Bool.not_eq_true] at h1
        by_cases h2 : (decide (a ∉ refs) : Bool) = true
        · simp only [List.filter_cons, h1, h2, if_true, Bool.false_eq_true, if_false,
            List.length_cons]
          exact Nat.lt_succ_of_lt (ih hal)
        · simp only [Bool.not_eq_true] at h2
          simp only [List.filter_cons, h1, h2, Bool.false_eq_true, if_false]
          exact ih hal

theorem fuelBound_append {dm : DepMap α} {refs : List α} {q : α}
    (hq : q ∈ valueNames dm) (hqr : q ∉ refs) {fuel : Nat}
    (h : fuelBound dm refs ≤ fuel + 1) :
    fuelBound dm (refs ++ [q]) ≤ fuel := by
  have hq2 : q ∈ (valueNames dm).dedup := List.mem_dedup.2 hq
  have := @length_filter_not_mem_lt α _ ((valueNames dm).dedup) refs q hq2 hqr
  unfold fuelBound at h ⊢
  omega

theorem fuelBound_le_upwFuel (dm : DepMap α) (refs : List α) :
    fuelBound dm refs ≤ upwFuel dm := by
  unfold fuelBound upwFuel
  have h1 : ((valueNames dm).dedup.filter (fun x => decide (x ∉ refs))).length
      ≤ (valueNames dm).dedup.length := List.length_filter_le _ _
  have h2 : (valueNames dm).dedup.length ≤ (valueNames dm).length :=
    (List.dedup_sublist (valueNames dm)).length_le
  omega

/-- Facts established by a cycle-free run of `updatePathWeight`. -/
structure UpwNone (dm : DepMap α) (wm : WeightMap α) (p : α) (w : Nat)
    (refs : List α) (wm1 : WeightMap α) : Prop where
  frame : ∀ x ∈ refs, x ≠ p → wm1 x = wm x
  mono : Mono wm wm1
  prog : ∃ v, wm1 p = some v ∧ w ≤ v
  shift : Shift dm wm wm1
  touched : ∀ x, wm1 x ≠ wm x → x = p ∨ x ∈ valueNames dm

/-- Facts established by a cycle-free run of the dependency loop. -/
structure LoopNone (dm : DepMap α) (wm : WeightMap α) (w : Nat)
    (refs : List α) (list : List α) (wm1 : WeightMap α) : Prop where
  frame : ∀ x ∈ refs, wm1 x = wm x
  mono : Mono wm wm1
  prog : ∀ q ∈ list, ∃ v, wm1 q = some v ∧ w + 1 ≤ v
  shift : Shift dm wm wm1
  touched : ∀ x, wm1 x ≠ wm x → x ∈ valueNames dm

theorem upwLoop_none_facts (dm : DepMap α) (fuel : Nat)
    (IH : ∀ (wm : WeightMap α) (q : α) (w2 : Nat) (refs2 : List α) (wm1 : WeightMap α),
      updatePathWeight dm fuel wm q w2 refs2 = (wm1, none) → q ∈ refs2 →
      fuelBound dm refs2 ≤ fuel → UpwNone dm wm q w2 refs2 wm1) :
    ∀ (list : List α) (wm wm1 : WeightMap α) (w : Nat) (refs : List α),
      upwLoop (updatePathWeight dm fuel) w refs list wm = (wm1, none) →
      list ⊆ valueNames dm →
      fuelBound dm refs ≤ fuel + 1 →
      LoopNone dm wm w refs list wm1 := by
  intro list
  induction list with
  | nil =>
    intro wm wm1 w refs h hsub hfb
    simp only [upwLoop] at h
    cases h
    exact ⟨fun x _ => rfl, mono_refl wm, by simp, shift_refl dm wm, by simp⟩
  | cons q rest ih =>
    intro wm wm1 w refs h hsub hfb
    simp only [upwLoop] at h
    by_cases hq : q ∈ refs
    · rw [if_pos hq] at h
      cases h
    · rw [if_neg hq] at h
      rcases hrec : updatePathWeight dm fuel wm q (w + 1) (refs ++ [q]) with ⟨wmr, o⟩
      rw [hrec] at h
      cases o with
      | some r => simp at h
      | none =>
        have hqv : q ∈ valueNames dm := hsub (by simp)
        have U := IH wm q (w + 1) (refs ++ [q]) wmr hrec (by simp)
          (fuelBound_append hqv hq hfb)
        have L := ih wmr wm1 w refs h (fun x hx => hsub (by simp [hx])) hfb
        refine ⟨?_, mono_trans U.mono L.mono, ?_, shift_trans U.shift L.shift L.mono, ?_⟩
        · intro x hx
          have hxq : x ≠ q := fun he => hq (he ▸ hx)
          rw [L.frame x hx, U.frame x (by simp [hx]) hxq]
        · intro b hb
          rcases List.mem_cons.1 hb with rfl | hb
          · obtain ⟨v, hv, hle⟩ := U.prog
            obtain ⟨v2, hv2, hle2⟩ := L.mono b v hv
            exact ⟨v2, hv2, Nat.le_trans hle hle2⟩
          · exact L.prog b hb
        · intro x hx
          by_cases hmid : wmr x = wm x
          · exact L.touched x (fun he => hx (he.trans hmid))
          · rcases U.touched x hmid with rfl | hv
            · exact hqv
            · exact hv

theorem upw_set_nodeps_facts (dm : DepMap α) (wm : WeightMap α) (p : α) (w : Nat)
    (refs : List α)
    (hset : wm p = none ∨ ∃ w0, wm p = some w0 ∧ w0 ≤ w)
    (hlk : lookupDep dm p = none) :
    UpwNone dm wm p w refs (setWeight wm p w) := by
  refine ⟨?_, Mono.set hset, ?_, ?_, ?_⟩
  · intro x _ hxp
    simp [setWeight, hxp]
  · exact ⟨w, by simp [setWeight], Nat.le_refl w⟩
  · intro a va ha
    by_cases hap : a = p
    · subst hap
      refine Or.inr (fun b hb => ?_)
      simp [depsOf, hlk] at hb
    · simp [setWeight, hap] at ha
      exact Or.inl ha
  · intro x hx
    by_cases hxp : x = p
    · exact Or.inl hxp
    · exfalso
      exact hx (by simp [setWeight, hxp])

theorem upw_set_loop_facts (dm : DepMap α) {wm wm1 : WeightMap α} {p : α} {w : Nat}
    {refs list : List α}
    (hset : wm p = none ∨ ∃ w0, wm p = some w0 ∧ w0 ≤ w)
    (hlk : lookupDep dm p = some list) (hp : p ∈ refs)
    (L : LoopNone dm (setWeight wm p w) w refs list wm1) :
    UpwNone dm wm p w refs wm1 := by
  refine ⟨?_, mono_trans (Mono.set hset) L.mono, ?_, ?_, ?_⟩
  · intro x hx hxp
    rw [L.frame x hx]
    simp [setWeight, hxp]
  · refine ⟨w, ?_, Nat.le_refl w⟩
    rw [L.frame p hp]
    simp [setWeight]
  · intro a va ha
    rcases L.shift a va ha with hset1 | hsat
    · by_cases hap : a = p
      · subst hap
        simp [setWeight] at hset1
        refine Or.inr (fun b hb => ?_)
        have hb2 : b ∈ list := by simpa [depsOf, hlk] using hb
        obtain ⟨v, hv, hle⟩ := L.prog b hb2
        exact ⟨v, hv, by omega⟩
      · simp [setWeight, hap] at hset1
        exact Or.inl hset1
    · exact Or.inr hsat
  · intro x hx
    by_cases hmid : wm1 x = setWeight wm p w x
    · by_cases hxp : x = p
      · exact Or.inl hxp
      · exfalso
        apply hx
        rw [hmid]
        simp [setWeight, hxp]
    · exact Or.inr (L.touched x hmid)

theorem upw_none_facts (dm : DepMap α) :
    ∀ (fuel : Nat) (wm : WeightMap α) (p : α) (w : Nat) (refs : List α) (wm1 : WeightMap α),
      updatePathWeight dm fuel wm p w refs = (wm1, none) → p ∈ refs →
      fuelBound dm refs ≤ fuel → UpwNone dm wm p w refs wm1 := by
  intro fuel
  induction fuel with
  | zero =>
    intro wm p w refs wm1 h hp hfb
    exfalso
    unfold fuelBound at hfb
    omega
  | succ fuel ihf =>
    intro wm p w refs wm1 h hp hfb
    simp only [updatePathWeight] at h
    rcases hwp : wm p with _ | w0
    · rw [hwp] at h
      rcases hlk : lookupDep dm p with _ | list
      · rw [hlk] at h
        simp only [Prod.mk.injEq] at h
        rw [← h.1]
        exact upw_set_nodeps_facts dm wm p w refs (Or.inl hwp) hlk
      · rw [hlk] at h
        exact upw_set_loop_facts dm (Or.inl hwp) hlk hp
          (upwLoop_none_facts dm fuel ihf list (setWeight wm p w) wm1 w refs h
            (subset_valueNames_of_lookupDep hlk) hfb)
    · simp only [hwp] at h
      by_cases hlt : w0 < w
      · rw [if_pos hlt] at h
        rcases hlk : lookupDep dm p with _ | list
        · rw [hlk] at h
          simp only [Prod.mk.injEq] at h
          rw [← h.1]
          exact upw_set_nodeps_facts dm wm p w refs
            (Or.inr ⟨w0, hwp, Nat.le_of_lt hlt⟩) hlk
        · rw [hlk] at h
          exact upw_set_loop_facts dm (Or.inr ⟨w0, hwp, Nat.le_of_lt hlt⟩) hlk hp
            (upwLoop_none_facts dm fuel ihf list (setWeight wm p w) wm1 w refs h
              (subset_valueNames_of_lookupDep hlk) hfb)
      · rw [if_neg hlt] at h
        cases h
        exact ⟨fun x _ _ => rfl, mono_refl wm, ⟨w0, hwp, Nat.le_of_not_lt hlt⟩,
          shift_refl dm wm, by simp⟩

/-! ### Cycle-path shape -/

theorem upwLoop_some_facts (dm : DepMap α) (fuel : Nat)
    (IH : ∀ (wm : WeightMap α) (q : α) (w2 : Nat) (refs2 : List α) (wm1 : WeightMap α)
      (r : List α),
      updatePathWeight dm fuel wm q w2 refs2 = (wm1, some r) →
      refs2.getLast? = some q →
      List.Chain' (fun a b => Edge dm a b) refs2 →
      (∃ l x, r = l ++ [x] ∧ x ∈ l) ∧ List.Chain' (fun a b => Edge dm a b) r) :
    ∀ (list : List α) (p : α) (wm wm1 : WeightMap α) (r : List α) (w : Nat) (refs : List α),
      upwLoop (updatePathWeight dm fuel) w refs list wm = (wm1, some r) →
      refs.getLast? = some p →
      List.Chain' (fun a b => Edge dm a b) refs →
      (∀ q ∈ list, Edge dm p q) →
      (∃ l x, r = l ++ [x] ∧ x ∈ l) ∧ List.Chain' (fun a b => Edge dm a b) r := by
  intro list
  induction list with
  | nil =>
    intro p wm wm1 r w refs h _ _ _
    simp [upwLoop] at h
  | cons q rest ih =>
    intro p wm wm1 r w refs h hlast hchain hedges
    simp only [upwLoop] at h
    have hchainq : List.Chain' (fun a b => Edge dm a b) (refs ++ [q]) := by
      refine List.chain'_append.2 ⟨hchain, List.chain'_singleton q, ?_⟩
      intro x hx y hy
      simp [hlast] at hx
      simp at hy
      subst hx
      subst hy
      exact hedges q (by simp)
    by_cases hq : q ∈ refs
    · rw [if_pos hq] at h
      simp only [Prod.mk.injEq, Option.some.injEq] at h
      rw [← h.2]
      exact ⟨⟨refs, q, rfl, hq⟩, hchainq⟩
    · rw [if_neg hq] at h
      rcases hrec : updatePathWeight dm fuel wm q (w + 1) (refs ++ [q]) with ⟨wmr, o⟩
      rw [hrec] at h
      cases o with
      | some r2 =>
        simp only [Prod.mk.injEq, Option.some.injEq] at h
        rw [← h.2]
        exact IH wm q (w + 1) (refs ++ [q]) wmr r2 hrec (List.getLast?_concat refs) hchainq
      | none =>
        exact ih p wmr wm1 r w refs h hlast hchain (fun x hx => hedges x (by simp [hx]))

theorem upw_some_facts (dm : DepMap α) :
    ∀ (fuel : Nat) (wm : WeightMap α) (p : α) (w : Nat) (refs : List α) (wm1 : WeightMap α)
      (r : List α),
      updatePathWeight dm fuel wm p w refs = (wm1, some r) →
      refs.getLast? = some p →
      List.Chain' (fun a b => Edge dm a b) refs →
      (∃ l x, r = l ++ [x] ∧ x ∈ l) ∧ List.Chain' (fun a b => Edge dm a b) r := by
  intro fuel
  induction fuel with
  | zero =>
    intro wm p w refs wm1 r h _ _
    simp [updatePathWeight] at h
  | succ fuel ihf =>
    intro wm p w refs wm1 r h hlast hchain
    simp only [updatePathWeight] at h
    have hedges : ∀ (list : List α), lookupDep dm p = some list → ∀ q ∈ list, Edge dm p q := by
      intro list hlk q hqm
      simp [Edge, depsOf, hlk]
      exact hqm
    rcases hwp : wm p with _ | w0
    · simp only [hwp] at h
      rcases hlk : lookupDep dm p with _ | list
      · rw [hlk] at h
        simp at h
      · rw [hlk] at h
        exact upwLoop_some_facts dm fuel ihf list p (setWeight wm p w) wm1 r w refs h
          hlast hchain (hedges list hlk)
    · simp only [hwp] at h
      by_cases hlt : w0 < w
      · rw [if_pos hlt] at h
        rcases hlk : lookupDep dm p with _ | list
        · rw [hlk] at h
          simp at h
        · rw [hlk] at h
          exact upwLoop_some_facts dm fuel ihf list p (setWeight wm p w) wm1 r w refs h
            hlast hchain (hedges list hlk)
      · rw [if_neg hlt] at h
        simp at h

theorem sortLoop_some_facts (isDecl : α → Bool) (dm : DepMap α) :
    ∀ (files : List (SourceFile α)) (wm wm1 : WeightMap α) (r : List α),
      sortLoop isDecl dm files wm = (wm1, some r) →
      (∃ l x, r = l ++ [x] ∧ x ∈ l) ∧ List.Chain' (fun a b => Edge dm a b) r := by
  intro files
  induction files with
  | nil =>
    intro wm wm1 r h
    simp [sortLoop] at h
  | cons sf rest ih =>
    intro wm wm1 r h
    simp only [sortLoop] at h
    by_cases hd : isDecl sf.fileName = true
    · rw [if_pos hd] at h
      exact ih _ wm1 r h
    · simp only [Bool.not_eq_true] at hd
      rw [if_neg (by simp [hd])] at h
      rcases hu : updatePathWeight dm (upwFuel dm) wm sf.fileName 0 [sf.fileName] with ⟨wmr, o⟩
      rw [hu] at h
      cases o with
      | some r2 =>
        simp only [Prod.mk.injEq, Option.some.injEq] at h
        rw [← h.2]
        exact upw_some_facts dm (upwFuel dm) wm sf.fileName 0 [sf.fileName] wmr r2 hu
          (by simp) (List.chain'_singleton sf.fileName)
      | none =>
        exact ih wmr wm1 r h

/-! ### The weight invariant across the whole sorter loop -/

/-- Every assigned weight satisfies all its outgoing edges. -/
def SatW (dm : DepMap α) (wm : WeightMap α) : Prop :=
  ∀ a va, wm a = some va → ∀ b ∈ depsOf dm a, ∃ vb, wm b = some vb ∧ va + 1 ≤ vb

theorem satW_of_shift {dm : DepMap α} {wm wm1 : WeightMap α}
    (hs : SatW dm wm) (hshift : Shift dm wm wm1) (hm : Mono wm wm1) : SatW dm wm1 := by
  intro a va h
  rcases hshift a va h with h1 | hsat
  · intro b hb
    obtain ⟨vb, hvb, hle⟩ := hs a va h1 b hb
    obtain ⟨vb2, hvb2, hle2⟩ := hm b vb hvb
    exact ⟨vb2, hvb2, Nat.le_trans hle hle2⟩
  · exact hsat

/-- Assigned entries stay assigned. -/
def Keeps (wm wm1 : WeightMap α) : Prop :=
  ∀ x, (wm x).isSome → (wm1 x).isSome

theorem Mono.keeps {wm wm1 : WeightMap α} (h : Mono wm wm1) : Keeps wm wm1 := by
  intro x hx
  rcases Option.isSome_iff_exists.1 hx with ⟨v, hv⟩
  obtain ⟨v2, hv2, -⟩ := h x v hv
  simp [hv2]

theorem keeps_trans {wm1 wm2 wm3 : WeightMap α} (h1 : Keeps wm1 wm2) (h2 : Keeps wm2 wm3) :
    Keeps wm1 wm3 := fun x hx => h2 x (h1 x hx)

theorem keeps_set (wm : WeightMap α) (k : α) (v : Nat) : Keeps wm (setWeight wm k v) := by
  intro x hx
  by_cases hk : x = k <;> simp [setWeight, hk, hx]

theorem satW_set_decl {isDecl : α → Bool} {dm : DepMap α} {wm : WeightMap α} {d : α}
    (hk : ∀ a b, Edge dm a b → isDecl a = false ∧ isDecl b = false)
    (hd : isDecl d = true) (hs : SatW dm wm) :
    SatW dm (setWeight wm d 10000) := by
  intro a va h hb hbm
  by_cases had : a = d
  · subst had
    exfalso
    have := (hk a hb hbm).1
    rw [hd] at this
    cases this
  · simp only [setWeight, if_neg had] at h
    obtain ⟨vb, hvb, hle⟩ := hs a va h hb hbm
    have hbd : hb ≠ d := by
      intro he
      have := (hk a hb hbm).2
      rw [he, hd] at this
      cases this
    refine ⟨vb, ?_, hle⟩
    simp [setWeight, hbd, hvb]

theorem sortLoop_none_facts (isDecl : α → Bool) (dm : DepMap α)
    (hk : ∀ a b, Edge dm a b → isDecl a = false ∧ isDecl b = false) :
    ∀ (files : List (SourceFile α)) (wm wm1 : WeightMap α),
      sortLoop isDecl dm files wm = (wm1, none) →
      SatW dm wm →
      SatW dm wm1 ∧ Keeps wm wm1
        ∧ ∀ sf ∈ files, isDecl sf.fileName = false → (wm1 sf.fileName).isSome := by
  intro files
  induction files with
  | nil =>
    intro wm wm1 h hs
    simp only [sortLoop] at h
    cases h
    exact ⟨hs, fun x hx => hx, by simp⟩
  | cons sf rest ih =>
    intro wm wm1 h hs
    simp only [sortLoop] at h
    by_cases hd : isDecl sf.fileName = true
    · rw [if_pos hd] at h
      obtain ⟨hs1, hkeep, hass⟩ := ih _ wm1 h (satW_set_decl hk hd hs)
      refine ⟨hs1, keeps_trans (keeps_set wm sf.fileName 10000) hkeep, ?_⟩
      intro sf2 hsf2 hnd
      rcases List.mem_cons.1 hsf2 with rfl | hsf2
      · rw [hd] at hnd
        cases hnd
      · exact hass sf2 hsf2 hnd
    · simp only [Bool.not_eq_true] at hd
      rw [if_neg (by simp [hd])] at h
      rcases hu : updatePathWeight dm (upwFuel dm) wm sf.fileName 0 [sf.fileName] with ⟨wmr, o⟩
      rw [hu] at h
      cases o with
      | some r => simp at h
      | none =>
        have U := upw_none_facts dm (upwFuel dm) wm sf.fileName 0 [sf.fileName] wmr hu
          (by simp) (fuelBound_le_upwFuel dm [sf.fileName])
        obtain ⟨hs1, hkeep, hass⟩ := ih wmr wm1 h (satW_of_shift hs U.shift U.mono)
        refine ⟨hs1, keeps_trans U.mono.keeps hkeep, ?_⟩
        intro sf2 hsf2 hnd
        rcases List.mem_cons.1 hsf2 with rfl | hsf2
        · obtain ⟨v, hv, -⟩ := U.prog
          exact hkeep sf2.fileName (by simp [hv])
        · exact hass sf2 hsf2 hnd

/-! ### Concrete fixtures used by witnesses and counterexamples -/

/-- Body of the function in file 1: a reference to a value of file 2. -/
def exCallBody : List (BlockNode Nat) := [.exprNode (.identE (some (.mk 2 .otherDecl)))]

/-- File 0: top-level call of a function declared in file 1. -/
def exFileA : SourceFile Nat :=
  ⟨0, false, false,
    [(false, .exprS (.callE (.identE (some (.mk 1 (.functionDecl exCallBody)))) []))]⟩

/-- File 1: hosts the called function declaration (its declaration
statement itself is not traversed). -/
def exFileB : SourceFile Nat := ⟨1, false, false, [(false, .otherS)]⟩

/-- File 2: plain file with no statements. -/
def exFileC : SourceFile Nat := ⟨2, false, false, []⟩

def exCallFiles : List (SourceFile Nat) := [exFileA, exFileB, exFileC]

/-- No file is a declaration file in the concrete examples. -/
def exNoDecl : Nat → Bool := fun _ => false

/-- Two statement-free files named 0 and 1. -/
def exTwoFiles : List (SourceFile Nat) := [⟨0, false, false, []⟩, ⟨1, false, false, []⟩]

/-- Three statement-free files named 0, 1, 2. -/
def exThreeFiles : List (SourceFile Nat) :=
  [⟨0, false, false, []⟩, ⟨1, false, false, []⟩, ⟨2, false, false, []⟩]

/-- Cycle not through the start of the propagation: 0 → 1 → 2 → 1. -/
def exOffRootCycleDm : DepMap Nat := [(0, [1]), (1, [2]), (2, [1])]

/-- Two files depending on each other. -/
def exTwoCycleDm : DepMap Nat := [(0, [1]), (1, [0])]

/-- One edge 0 → 1. -/
def exOneEdgeDm : DepMap Nat := [(0, [1])]

/-- One edge 0 → 2 (files 1 and 2 unrelated to each other). -/
def exSkipEdgeDm : DepMap Nat := [(0, [2])]

/-! ### Claim theorems: builder invariants -/

/-- C8: the builder records no self-edge: `addDependency` suppresses the
pair when both components are equal, and consequently no unit of the built
dependency map lists itself among its dependencies (hence a self reference
can never influence the weight of its own unit: there is no edge the
weight propagation could follow). -/
theorem c8_no_self_edge (isDecl : α → Bool) (files : List (SourceFile α)) (f : α) :
    (∀ dm : DepMap α, addDependency dm f f = dm)
    ∧ f ∉ depsOf (buildDependencyMap isDecl files) f := by
  constructor
  · intro dm
    simp [addDependency]
  · exact no_self_of_steps (buildDependencyMap_steps isDecl files)
      (fun x => by simp [depsOf, createMap, lookupDep]) f

/-- C9: in the built dependency map every dependency list is duplicate
free: each ordered pair (dependent, dependency) is recorded at most once,
no matter how often the same cross-unit reference occurs. -/
theorem c9_dedup (isDecl : α → Bool) (files : List (SourceFile α)) (f : α) :
    (depsOf (buildDependencyMap isDecl files) f).Nodup :=
  nodup_of_steps (buildDependencyMap_steps isDecl files)
    (fun x => by simp [depsOf, createMap, lookupDep]) f

/-- C10: every edge the builder records has a non-declaration unit at both
endpoints: the builder re-checks the resolved declaration's file
(`checkDependencyAtLocation` and `checkCallExpression` both test
`isDeclarationFile` before calling `addDependency`), and edge sources are
always files the builder visits as non-declaration contexts. -/
theorem c10_nondecl_endpoints (isDecl : α → Bool) (files : List (SourceFile α))
    {s t : α} (h : Edge (buildDependencyMap isDecl files) s t) :
    isDecl s = false ∧ isDecl t = false := by
  rcases edge_of_steps (buildDependencyMap_steps isDecl files) h with h1 | ⟨hp, _⟩
  · exfalso
    simp [Edge, depsOf, createMap, lookupDep] at h1
  · exact hp

/-- Witness for C10 at a concrete program that records the edge 0 → 1. -/
theorem c10_nondecl_endpoints_witness :
    Edge (buildDependencyMap exNoDecl exCallFiles) 0 1
    ∧ (exNoDecl 0 = false ∧ exNoDecl 1 = false) :=
  ⟨by decide, c10_nondecl_endpoints exNoDecl exCallFiles (by decide)⟩

/-! ### Claim theorems: error handling of the sorter -/

/-- C5: when a circular dependency is detected it is reported as data in
the returned result (the embedding of `sortOnDependency` is a total
function; the source throws nothing): the sorted-file-name list of the
result is empty and both the source-file order and the root-file-name
list are returned unchanged. -/
theorem c5_cycle_first_class_state_unchanged (isDecl : α → Bool)
    (files : List (SourceFile α)) (roots : List α) (dm : DepMap α)
    (h : (sortOnDependency isDecl files roots dm).1.circularReferences ≠ []) :
    (sortOnDependency isDecl files roots dm).1.sortedFileNames = []
    ∧ (sortOnDependency isDecl files roots dm).2.1 = files
    ∧ (sortOnDependency isDecl files roots dm).2.2 = roots := by
  simp only [sortOnDependency] at h ⊢
  by_cases h0 : ((sortLoop isDecl dm files (fun _ => none)).2.getD []).length = 0
  · rw [if_pos h0] at h
    exact absurd (List.length_eq_zero.1 h0) h
  · rw [if_neg h0]
    exact ⟨rfl, rfl, rfl⟩

/-- Witness for C5 on a two-file cycle. -/
theorem c5_cycle_first_class_state_unchanged_witness :
    (sortOnDependency exNoDecl exTwoFiles [5] exTwoCycleDm).1.circularReferences ≠ []
    ∧ ((sortOnDependency exNoDecl exTwoFiles [5] exTwoCycleDm).1.sortedFileNames = []
      ∧ (sortOnDependency exNoDecl exTwoFiles [5] exTwoCycleDm).2.1 = exTwoFiles
      ∧ (sortOnDependency exNoDecl exTwoFiles [5] exTwoCycleDm).2.2 = [5]) :=
  ⟨by decide,
    c5_cycle_first_class_state_unchanged exNoDecl exTwoFiles [5] exTwoCycleDm (by decide)⟩

/-! ### Counterexamples to claims as stated -/

/-- Counterexample to C2 as stated: on the input 0 → 1 → 2 → 1 (the cycle
does not pass through the propagation start 0) the reported path is
[0, 1, 2, 1]: its first and last entries differ and it contains the
non-cycle unit 0, refuting "first and last entry identical" and "exactly
the unit names forming the cycle" for inputs whose cycle avoids the start
unit. -/
theorem c2_counterexample :
    (sortOnDependency exNoDecl exThreeFiles [] exOffRootCycleDm).1.circularReferences
      = [0, 1, 2, 1]
    ∧ (sortOnDependency exNoDecl exThreeFiles [] exOffRootCycleDm).1.circularReferences.head?
      ≠ (sortOnDependency exNoDecl exThreeFiles [] exOffRootCycleDm).1.circularReferences.getLast? := by
  decide

/-- Counterexample to C3 as stated: with the single edge 0 → 1 (unit 0
depends on unit 1) the propagation assigns weight 0 to the dependent 0 and
weight 1 to the dependency 1, so weight(0) ≥ weight(1) + 1 fails: the
claimed inequality points the wrong way. -/
theorem c3_counterexample :
    Edge exOneEdgeDm 0 1
    ∧ (sortLoop exNoDecl exOneEdgeDm exTwoFiles (fun _ => none)).1 0 = some 0
    ∧ (sortLoop exNoDecl exOneEdgeDm exTwoFiles (fun _ => none)).1 1 = some 1
    ∧ ¬ (1 + 1 ≤ (0 : Nat)) := by
  decide

/-- Counterexample to C7 as stated: files in input order 0, 1, 2 and the
single edge 0 → 2 (no edges between 1 and 2 in either direction); the
output order is [2, 0, 1], so the mutually unrelated units 1 and 2 do not
keep their input order (unit 2 is pulled ahead because another unit
depends on it); only equal-weight units keep their order. -/
theorem c7_counterexample :
    lookupDep exSkipEdgeDm 1 = none
    ∧ lookupDep exSkipEdgeDm 2 = none
    ∧ depsOf exSkipEdgeDm 0 = [2]
    ∧ exThreeFiles.map (fun sf => sf.fileName) = [0, 1, 2]
    ∧ (sortOnDependency exNoDecl exThreeFiles [] exSkipEdgeDm).1.sortedFileNames = [2, 0, 1] := by
  decide

/-! ### Claim theorems: cycle path shape and edge weights -/

/-- C2 (amended): whenever the sorter reports a circular dependency, the
reported path is the visited dependency chain extended by one repeated
name: consecutive entries are dependency edges and the last entry repeats
an earlier entry of the path (the segment between the two occurrences of
that entry is the discovered cycle).  The first entry of the path equals
the last one only when the cycle passes through the unit at which the
propagation started; in general the path may carry a non-cycle prefix. -/
theorem c2_amended_cycle_path_shape (isDecl : α → Bool) (files : List (SourceFile α))
    (roots : List α) (dm : DepMap α)
    (h : (sortOnDependency isDecl files roots dm).1.circularReferences ≠ []) :
    (∃ l x, (sortOnDependency isDecl files roots dm).1.circularReferences = l ++ [x] ∧ x ∈ l)
    ∧ List.Chain' (fun a b => Edge dm a b)
        ((sortOnDependency isDecl files roots dm).1.circularReferences) := by
  rcases hsl : sortLoop isDecl dm files (fun _ => none) with ⟨wm, o⟩
  cases o with
  | none =>
    exfalso
    apply h
    simp [sortOnDependency, hsl]
  | some r =>
    by_cases hr0 : r.length = 0
    · exfalso
      apply h
      simp only [sortOnDependency, hsl]
      rw [if_pos (by simpa using hr0)]
      simpa using List.length_eq_zero.1 hr0
    · have hcirc : (sortOnDependency isDecl files roots dm).1.circularReferences = r := by
        simp only [sortOnDependency, hsl]
        rw [if_neg (by simpa using hr0)]
        simp
      rw [hcirc]
      exact sortLoop_some_facts isDecl dm files (fun _ => none) wm r hsl

/-- Witness for the amended C2 on a two-file cycle. -/
theorem c2_amended_cycle_path_shape_witness :
    (sortOnDependency exNoDecl exTwoFiles [] exTwoCycleDm).1.circularReferences ≠ []
    ∧ ((∃ l x, (sortOnDependency exNoDecl exTwoFiles [] exTwoCycleDm).1.circularReferences
          = l ++ [x] ∧ x ∈ l)
      ∧ List.Chain' (fun a b : Nat => Edge exTwoCycleDm a b)
          ((sortOnDependency exNoDecl exTwoFiles [] exTwoCycleDm).1.circularReferences)) :=
  by
  have h : (sortOnDependency exNoDecl exTwoFiles [] exTwoCycleDm).1.circularReferences ≠ [] := by
    decide
  exact ⟨h, c2_amended_cycle_path_shape exNoDecl exTwoFiles [] exTwoCycleDm h⟩

/-- C3 (amended): after the weight propagation completes without a cycle,
for every dependency edge A → X recorded in the map (A depends on X) the
weight of the dependency X is at least weight(A) + 1 — the code increments
weights walking from dependents into dependencies, which is the opposite
direction from the claim as stated; moreover every non-declaration source
file has an assigned weight.  The hypothesis that declaration files do not
occur in the map is exactly the guarantee the builder provides (C10). -/
theorem c3_amended_edge_weights (isDecl : α → Bool) (files : List (SourceFile α))
    (dm : DepMap α)
    (hk : ∀ a b, Edge dm a b → isDecl a = false ∧ isDecl b = false)
    (hnone : (sortLoop isDecl dm files (fun _ => none)).2 = none) :
    (∀ sf ∈ files, isDecl sf.fileName = false →
      ∃ v, (sortLoop isDecl dm files (fun _ => none)).1 sf.fileName = some v)
    ∧ ∀ a b, Edge dm a b → ∀ va,
        (sortLoop isDecl dm files (fun _ => none)).1 a = some va →
        ∃ vb, (sortLoop isDecl dm files (fun _ => none)).1 b = some vb ∧ va + 1 ≤ vb := by
  rcases hsl : sortLoop isDecl dm files (fun _ => none) with ⟨wm1, o⟩
  rw [hsl] at hnone
  simp at hnone
  subst hnone
  obtain ⟨hsat, -, hass⟩ := sortLoop_none_facts isDecl dm hk files (fun _ => none) wm1 hsl
    (by intro a va hv b hb; cases hv)
  constructor
  · intro sf hsf hnd
    exact Option.isSome_iff_exists.1 (hass sf hsf hnd)
  · intro a b hb va hva
    exact hsat a va hva b hb

/-- Witness for the amended C3 on the single edge 0 → 1. -/
theorem c3_amended_edge_weights_witness :
    ((∀ a b : Nat, Edge exOneEdgeDm a b → exNoDecl a = false ∧ exNoDecl b = false)
      ∧ (sortLoop exNoDecl exOneEdgeDm exTwoFiles (fun _ => none)).2 = none)
    ∧ ((∀ sf ∈ exTwoFiles, exNoDecl sf.fileName = false →
        ∃ v, (sortLoop exNoDecl exOneEdgeDm exTwoFiles (fun _ => none)).1 sf.fileName = some v)
      ∧ ∀ a b : Nat, Edge exOneEdgeDm a b → ∀ va,
          (sortLoop exNoDecl exOneEdgeDm exTwoFiles (fun _ => none)).1 a = some va →
          ∃ vb, (sortLoop exNoDecl exOneEdgeDm exTwoFiles (fun _ => none)).1 b = some vb
            ∧ va + 1 ≤ vb) :=
  by
  have h : (sortLoop exNoDecl exOneEdgeDm exTwoFiles (fun _ => none)).2 = none := by decide
  exact ⟨⟨fun a b _ => ⟨rfl, rfl⟩, h⟩,
    c3_amended_edge_weights exNoDecl exTwoFiles exOneEdgeDm (fun a b _ => ⟨rfl, rfl⟩) h⟩


/-- C7 (amended): units of equal final weight retain their relative input
order under the stable sort: for every weight value, the subsequence of
re-sorted files carrying that weight equals the corresponding subsequence
of the input (the claim as stated — no edges in either direction implies
preserved order — fails, because an unrelated unit can be pulled forward
by a third unit that depends on it). -/
theorem c7_amended_equal_weight_stability (isDecl : α → Bool)
    (files : List (SourceFile α)) (roots : List α) (dm : DepMap α)
    (h : (sortOnDependency isDecl files roots dm).1.circularReferences = []) :
    ∀ k : Nat,
      ((sortOnDependency isDecl files roots dm).2.1).filter
          (fun sf => ((sortLoop isDecl dm files (fun _ => none)).1 sf.fileName).getD 0 == k)
        = files.filter
          (fun sf => ((sortLoop isDecl dm files (fun _ => none)).1 sf.fileName).getD 0 == k) := by
  by_cases h0 : ((sortLoop isDecl dm files (fun _ => none)).2.getD []).length = 0
  · intro k
    simp only [sortOnDependency]
    rw [if_pos h0]
    exact filter_sortByWeightDesc
      (fun sf => ((sortLoop isDecl dm files (fun _ => none)).1 sf.fileName).getD 0) k files
  · exfalso
    simp only [sortOnDependency] at h
    rw [if_neg h0] at h
    simp only at h
    exact h0 (by simp [h])

/-- Witness for the amended C7 on the input of the C7 counterexample. -/
theorem c7_amended_equal_weight_stability_witness :
    (sortOnDependency exNoDecl exThreeFiles [] exSkipEdgeDm).1.circularReferences = []
    ∧ ∀ k : Nat,
      ((sortOnDependency exNoDecl exThreeFiles [] exSkipEdgeDm).2.1).filter
          (fun sf => ((sortLoop exNoDecl exSkipEdgeDm exThreeFiles (fun _ => none)).1
            sf.fileName).getD 0 == k)
        = exThreeFiles.filter
          (fun sf => ((sortLoop exNoDecl exSkipEdgeDm exThreeFiles (fun _ => none)).1
            sf.fileName).getD 0 == k) := by
  have h : (sortOnDependency exNoDecl exThreeFiles [] exSkipEdgeDm).1.circularReferences = [] := by
    decide
  exact ⟨h, c7_amended_equal_weight_stability exNoDecl exThreeFiles [] exSkipEdgeDm h⟩

/-! ### A dependency chain long enough to reach the sentinel weight -/

/-- Chain map: `k` depends on `k + 1` for every `k` below `n`. -/
def chainDm : Nat → DepMap Nat
  | 0 => []
  | n + 1 => (n, [n + 1]) :: chainDm n

theorem lookupDep_chainDm : ∀ n k, lookupDep (chainDm n) k
    = if k < n then some [k + 1] else none := by
  intro n
  induction n with
  | zero => intro k; simp [chainDm, lookupDep]
  | succ n ih =>
    intro k
    by_cases hk : k = n
    · subst hk
      simp [chainDm, lookupDep]
    · simp only [chainDm, lookupDep, hk, if_false]
      rw [ih k]
      by_cases h2 : k < n
      · rw [if_pos h2, if_pos (by omega)]
      · rw [if_neg h2, if_neg (by omega)]

theorem length_valueNames_chainDm : ∀ n, (valueNames (chainDm n)).length = n := by
  intro n
  induction n with
  | zero => simp [chainDm, valueNames]
  | succ n ih =>
    simp only [chainDm, valueNames, List.foldr] at ih ⊢
    simp [ih]

/-- The weight map that assigns `x` to every name `x` below `k`. -/
def wmUpTo (k : Nat) : WeightMap Nat := fun x => if x < k then some x else none

theorem setWeight_wmUpTo (k : Nat) : setWeight (wmUpTo k) k k = wmUpTo (k + 1) := by
  funext x
  by_cases hx : x = k
  · simp [setWeight, wmUpTo, hx]
  · simp only [setWeight, wmUpTo, hx, if_false]
    by_cases h2 : x < k
    · rw [if_pos h2, if_pos (by omega)]
    · rw [if_neg h2, if_neg (by omega)]

/-- Running the propagation down the chain assigns weight `x` to every
name `x` up to the end of the chain: the final chain node receives weight
`N`, however long the chain is. -/
theorem upwChain : ∀ (d N k : Nat), k ≤ N → d = N + 1 - k →
    updatePathWeight (chainDm N) d (wmUpTo k) k k (List.range (k + 1))
      = (wmUpTo (N + 1), none) := by
  intro d
  induction d with
  | zero =>
    intro N k hk hd
    omega
  | succ d ih =>
    intro N k hk hd
    have hwmk : wmUpTo k k = none := by simp [wmUpTo]
    simp only [updatePathWeight, hwmk, setWeight_wmUpTo]
    rw [lookupDep_chainDm]
    by_cases hkN : k = N
    · subst hkN
      rw [if_neg (by omega)]
    · have hklt : k < N := by omega
      rw [if_pos hklt]
      simp only [upwLoop]
      rw [if_neg (by simp)]
      rw [← List.range_succ]
      rw [ih N (k + 1) (by omega) (by omega)]

/-- Skipping files whose names already carry a weight leaves the map
unchanged (the candidate weight 0 never beats an assigned weight). -/
theorem sortLoop_assigned_skip (isDecl : α → Bool) (dm : DepMap α) :
    ∀ (files : List (SourceFile α)) (wm : WeightMap α),
      (∀ sf ∈ files, isDecl sf.fileName = false ∧ (wm sf.fileName).isSome) →
      sortLoop isDecl dm files wm = (wm, none) := by
  intro files
  induction files with
  | nil => intro wm _; simp [sortLoop]
  | cons sf rest ih =>
    intro wm h
    obtain ⟨hnd, hsome⟩ := h sf (by simp)
    obtain ⟨v, hv⟩ := Option.isSome_iff_exists.1 hsome
    simp only [sortLoop]
    rw [if_neg (by simp [hnd])]
    have hfuel : upwFuel dm = (valueNames dm).length + 1 := rfl
    rw [hfuel]
    simp only [updatePathWeight, hv]
    rw [if_neg (Nat.not_lt_zero v)]
    exact ih wm (fun sf2 h2 => h sf2 (by simp [h2]))

/-- Appending file lists runs the loop in sequence when the first part
finds no cycle. -/
theorem sortLoop_append (isDecl : α → Bool) (dm : DepMap α) :
    ∀ (l1 l2 : List (SourceFile α)) (wm wm1 : WeightMap α),
      sortLoop isDecl dm l1 wm = (wm1, none) →
      sortLoop isDecl dm (l1 ++ l2) wm = sortLoop isDecl dm l2 wm1 := by
  intro l1
  induction l1 with
  | nil =>
    intro l2 wm wm1 h
    simp only [sortLoop] at h
    cases h
    simp
  | cons sf rest ih =>
    intro l2 wm wm1 h
    simp only [sortLoop, List.cons_append] at h ⊢
    by_cases hd : isDecl sf.fileName = true
    · rw [if_pos hd] at h ⊢
      exact ih l2 _ wm1 h
    · rw [if_neg hd] at h ⊢
      rcases hu : updatePathWeight dm (upwFuel dm) wm sf.fileName 0 [sf.fileName] with ⟨wmr, o⟩
      rw [hu] at h
      cases o with
      | some r => simp at h
      | none => exact ih l2 wmr wm1 h

/-- Declaration flag for the chain counterexample: only name 20000. -/
def c4IsDecl : Nat → Bool := fun n => n == 20000

def chainFile (i : Nat) : SourceFile Nat := ⟨i, false, false, []⟩

/-- A 10001-unit dependency chain plus one declaration file. -/
def c4Files : List (SourceFile Nat) :=
  (List.range 10001).map chainFile ++ [⟨20000, false, false, []⟩]

/-- One step of the sorter loop on a non-declaration head file whose
propagation finishes without a cycle. -/
theorem sortLoop_cons_nondecl_of_upw (isDecl : α → Bool) (dm : DepMap α) (sf : SourceFile α)
    (rest : List (SourceFile α)) (wm wmr : WeightMap α) (h : isDecl sf.fileName = false)
    (hu : updatePathWeight dm (upwFuel dm) wm sf.fileName 0 [sf.fileName] = (wmr, none)) :
    sortLoop isDecl dm (sf :: rest) wm = sortLoop isDecl dm rest wmr := by
  simp only [sortLoop]
  rw [if_neg (by simp [h]), hu]

/-- One step of the sorter loop on a declaration head file. -/
theorem sortLoop_cons_decl (isDecl : α → Bool) (dm : DepMap α) (sf : SourceFile α)
    (rest : List (SourceFile α)) (wm : WeightMap α) (h : isDecl sf.fileName = true) :
    sortLoop isDecl dm (sf :: rest) wm
      = sortLoop isDecl dm rest (setWeight wm sf.fileName 10000) := by
  simp only [sortLoop]
  rw [if_pos h]

theorem c4_chain_final :
    sortLoop c4IsDecl (chainDm 10000) c4Files (fun _ => none)
      = (setWeight (wmUpTo 10001) 20000 10000, none) := by
  have hwm0 : (fun _ => none : WeightMap Nat) = wmUpTo 0 := by
    funext x
    simp [wmUpTo]
  have hfiles : (List.range 10001).map chainFile
      = chainFile 0 :: ((List.range 10000).map Nat.succ).map chainFile := by
    have h1 : (10001 : Nat) = 10000 + 1 := rfl
    rw [h1, List.range_succ_eq_map, List.map_cons]
  have hfuel : upwFuel (chainDm 10000) = 10001 := by
    unfold upwFuel
    rw [length_valueNames_chainDm]
  have hrun := upwChain 10001 10000 0 (by omega) (by omega)
  rw [show List.range (0 + 1) = [0] from rfl] at hrun
  have hu1 : updatePathWeight (chainDm 10000) (upwFuel (chainDm 10000)) (wmUpTo 0)
      (chainFile 0).fileName 0 [(chainFile 0).fileName] = (wmUpTo 10001, none) := by
    rw [hfuel]
    exact hrun
  have hstep1 : sortLoop c4IsDecl (chainDm 10000) ((List.range 10001).map chainFile)
      (fun _ => none) = (wmUpTo 10001, none) := by
    rw [hfiles, hwm0]
    rw [sortLoop_cons_nondecl_of_upw c4IsDecl (chainDm 10000) (chainFile 0) _ (wmUpTo 0)
      (wmUpTo 10001) (by decide) hu1]
    refine sortLoop_assigned_skip c4IsDecl (chainDm 10000) _ (wmUpTo 10001) ?_
    intro sf hsf
    simp only [List.mem_map, List.mem_range] at hsf
    obtain ⟨j, ⟨i, hi, rfl⟩, rfl⟩ := hsf
    constructor
    · simp [c4IsDecl, chainFile]
      omega
    · simp [chainFile, wmUpTo]
      omega
  have happ := sortLoop_append c4IsDecl (chainDm 10000) ((List.range 10001).map chainFile)
    [⟨20000, false, false, []⟩] (fun _ => none) (wmUpTo 10001) hstep1
  unfold c4Files
  rw [happ]
  rw [sortLoop_cons_decl c4IsDecl (chainDm 10000) ⟨20000, false, false, []⟩ [] (wmUpTo 10001)
    (by decide)]
  rfl
/-- Counterexample to C4 as stated: with a 10001-unit dependency chain the
final chain unit is a non-declaration unit whose weight reaches 10000,
equal to (not below) the sentinel assigned to the declaration unit, so the
sentinel is not strictly greater than every non-declaration weight for
every input collection. -/
theorem c4_counterexample :
    (sortLoop c4IsDecl (chainDm 10000) c4Files (fun _ => none)).2 = none
    ∧ chainFile 10000 ∈ c4Files
    ∧ c4IsDecl (chainFile 10000).fileName = false
    ∧ (⟨20000, false, false, []⟩ : SourceFile Nat) ∈ c4Files
    ∧ c4IsDecl 20000 = true
    ∧ (sortLoop c4IsDecl (chainDm 10000) c4Files (fun _ => none)).1 20000 = some 10000
    ∧ (sortLoop c4IsDecl (chainDm 10000) c4Files (fun _ => none)).1 (chainFile 10000).fileName
        = some 10000
    ∧ ¬ (∀ (d u : SourceFile Nat), d ∈ c4Files → u ∈ c4Files →
          c4IsDecl d.fileName = true → c4IsDecl u.fileName = false →
          ∀ vd vu,
            (sortLoop c4IsDecl (chainDm 10000) c4Files (fun _ => none)).1 d.fileName = some vd →
            (sortLoop c4IsDecl (chainDm 10000) c4Files (fun _ => none)).1 u.fileName = some vu →
            vu < vd) := by
  have hmem1 : chainFile 10000 ∈ c4Files := by
    unfold c4Files
    refine List.mem_append.2 (Or.inl ?_)
    exact List.mem_map.2 ⟨10000, List.mem_range.2 (by omega), rfl⟩
  have hmem2 : (⟨20000, false, false, []⟩ : SourceFile Nat) ∈ c4Files := by
    unfold c4Files
    exact List.mem_append.2 (Or.inr (by simp))
  have hw1 : (sortLoop c4IsDecl (chainDm 10000) c4Files (fun _ => none)).1 20000
      = some 10000 := by
    rw [c4_chain_final]
    simp [setWeight]
  have hw2 : (sortLoop c4IsDecl (chainDm 10000) c4Files (fun _ => none)).1
      (chainFile 10000).fileName = some 10000 := by
    rw [c4_chain_final]
    simp [setWeight, wmUpTo, chainFile]
  have hw1p : (sortLoop c4IsDecl (chainDm 10000) c4Files (fun _ => none)).1
      (⟨20000, false, false, []⟩ : SourceFile Nat).fileName = some 10000 := by
    rw [c4_chain_final]
    simp [setWeight]
  have hd1 : c4IsDecl (⟨20000, false, false, []⟩ : SourceFile Nat).fileName = true := by decide
  have hd2 : c4IsDecl (chainFile 10000).fileName = false := by decide
  refine ⟨by rw [c4_chain_final], hmem1, hd2, hmem2, by decide, hw1, hw2, ?_⟩
  intro hcl
  have := hcl ⟨20000, false, false, []⟩ (chainFile 10000) hmem2 hmem1 hd1 hd2
    10000 10000 hw1p hw2
  omega

/-! ### Bounded weights: the sentinel dominates small inputs -/

theorem length_le_of_nodup_tail_subset {dm : DepMap α} {refs : List α}
    (hnd : refs.Nodup) (hsub : ∀ x ∈ refs.drop 1, x ∈ valueNames dm) :
    refs.length ≤ (valueNames dm).dedup.length + 1 := by
  cases refs with
  | nil => simp
  | cons r rest =>
    have hnd2 : rest.Nodup := (List.nodup_cons.1 hnd).2
    have hsub2 : ∀ x ∈ rest, x ∈ valueNames dm := by
      intro x hx
      exact hsub x (by simpa using hx)
    have h1 : rest.toFinset.card = rest.length := List.toFinset_card_of_nodup hnd2
    have h2 : rest.toFinset ⊆ (valueNames dm).toFinset := by
      intro x hx
      exact List.mem_toFinset.2 (hsub2 x (List.mem_toFinset.1 hx))
    have h3 : (valueNames dm).toFinset.card = (valueNames dm).dedup.length :=
      List.card_toFinset (valueNames dm)
    have := Finset.card_le_card h2
    simp only [List.length_cons]
    omega

theorem upwLoop_bound_facts (dm : DepMap α) (fuel : Nat)
    (IH : ∀ (wm : WeightMap α) (q : α) (w2 : Nat) (refs2 : List α) (wm1 : WeightMap α),
      updatePathWeight dm fuel wm q w2 refs2 = (wm1, none) →
      refs2.Nodup → (∀ x ∈ refs2.drop 1, x ∈ valueNames dm) → w2 + 1 ≤ refs2.length →
      ∀ x v, wm1 x = some v → wm x = some v ∨ v ≤ (valueNames dm).dedup.length) :
    ∀ (list : List α) (w : Nat) (refs : List α) (wm wm1 : WeightMap α),
      upwLoop (updatePathWeight dm fuel) w refs list wm = (wm1, none) →
      refs.Nodup → (∀ x ∈ refs.drop 1, x ∈ valueNames dm) → w + 1 ≤ refs.length →
      list ⊆ valueNames dm →
      ∀ x v, wm1 x = some v → wm x = some v ∨ v ≤ (valueNames dm).dedup.length := by
  intro list
  induction list with
  | nil =>
    intro w refs wm wm1 h _ _ _ _ x v hx
    simp only [upwLoop] at h
    cases h
    exact Or.inl hx
  | cons q rest ih =>
    intro w refs wm wm1 h hnd hsub hlen hlsub x v hx
    simp only [upwLoop] at h
    by_cases hq : q ∈ refs
    · rw [if_pos hq] at h
      cases h
    · rw [if_neg hq] at h
      rcases hrec : updatePathWeight dm fuel wm q (w + 1) (refs ++ [q]) with ⟨wmr, o⟩
      rw [hrec] at h
      cases o with
      | some r => simp at h
      | none =>
        have hqv : q ∈ valueNames dm := hlsub (by simp)
        have hnd2 : (refs ++ [q]).Nodup := by
          rw [List.nodup_append]
          exact ⟨hnd, by simp, by simpa [List.disjoint_right] using hq⟩
        have hsub2 : ∀ x ∈ (refs ++ [q]).drop 1, x ∈ valueNames dm := by
          intro y hy
          rw [List.drop_append_of_le_length (by omega)] at hy
          rcases List.mem_append.1 hy with hy | hy
          · exact hsub y hy
          · simp at hy
            subst hy
            exact hqv
        have hlen2 : (w + 1) + 1 ≤ (refs ++ [q]).length := by
          simp [List.length_append]
          omega
        have hrest := ih w refs wmr wm1 h hnd hsub hlen
          (fun y hy => hlsub (by simp [hy])) x v hx
        rcases hrest with hmid | hD
        · exact IH wm q (w + 1) (refs ++ [q]) wmr hrec hnd2 hsub2 hlen2 x v hmid
        · exact Or.inr hD

theorem upw_bound_facts (dm : DepMap α) :
    ∀ (fuel : Nat) (wm : WeightMap α) (p : α) (w : Nat) (refs : List α) (wm1 : WeightMap α),
      updatePathWeight dm fuel wm p w refs = (wm1, none) →
      refs.Nodup → (∀ x ∈ refs.drop 1, x ∈ valueNames dm) → w + 1 ≤ refs.length →
      ∀ x v, wm1 x = some v → wm x = some v ∨ v ≤ (valueNames dm).dedup.length := by
  intro fuel
  induction fuel with
  | zero =>
    intro wm p w refs wm1 h _ _ _ x v hx
    simp only [updatePathWeight] at h
    cases h
    exact Or.inl hx
  | succ fuel ihf =>
    intro wm p w refs wm1 h hnd hsub hlen x v hx
    have hwD : w ≤ (valueNames dm).dedup.length := by
      have := @length_le_of_nodup_tail_subset α _ dm refs hnd hsub
      omega
    have hsetcase : ∀ y u, setWeight wm p w y = some u →
        wm y = some u ∨ u ≤ (valueNames dm).dedup.length := by
      intro y u hy
      by_cases hyp : y = p
      · subst hyp
        simp [setWeight] at hy
        omega
      · simp [setWeight, hyp] at hy
        exact Or.inl hy
    simp only [updatePathWeight] at h
    rcases hwp : wm p with _ | w0
    · simp only [hwp] at h
      rcases hlk : lookupDep dm p with _ | list
      · rw [hlk] at h
        simp only [Prod.mk.injEq] at h
        rw [← h.1] at hx
        exact hsetcase x v hx
      · rw [hlk] at h
        have := upwLoop_bound_facts dm fuel ihf list w refs (setWeight wm p w) wm1 h
          hnd hsub hlen (subset_valueNames_of_lookupDep hlk) x v hx
        rcases this with hmid | hD
        · exact hsetcase x v hmid
        · exact Or.inr hD
    · simp only [hwp] at h
      by_cases hlt : w0 < w
      · rw [if_pos hlt] at h
        rcases hlk : lookupDep dm p with _ | list
        · rw [hlk] at h
          simp only [Prod.mk.injEq] at h
          rw [← h.1] at hx
          exact hsetcase x v hx
        · rw [hlk] at h
          have := upwLoop_bound_facts dm fuel ihf list w refs (setWeight wm p w) wm1 h
            hnd hsub hlen (subset_valueNames_of_lookupDep hlk) x v hx
          rcases this with hmid | hD
          · exact hsetcase x v hmid
          · exact Or.inr hD
      · rw [if_neg hlt] at h
        cases h
        exact Or.inl hx

theorem sortLoop_bound_facts (isDecl : α → Bool) (dm : DepMap α)
    (hD : (valueNames dm).dedup.length < 10000) :
    ∀ (files : List (SourceFile α)) (wm wm1 : WeightMap α),
      sortLoop isDecl dm files wm = (wm1, none) →
      (∀ x v, wm x = some v → v ≤ (valueNames dm).dedup.length
        ∨ (v = 10000 ∧ isDecl x = true)) →
      (∀ x v, wm1 x = some v → v ≤ (valueNames dm).dedup.length
        ∨ (v = 10000 ∧ isDecl x = true))
      ∧ (∀ x, wm x = some 10000 → wm1 x = some 10000)
      ∧ (∀ sf ∈ files, isDecl sf.fileName = true → wm1 sf.fileName = some 10000) := by
  intro files
  induction files with
  | nil =>
    intro wm wm1 h hinv
    simp only [sortLoop] at h
    cases h
    exact ⟨hinv, fun x hx => hx, by simp⟩
  | cons sf rest ih =>
    intro wm wm1 h hinv
    simp only [sortLoop] at h
    by_cases hd : isDecl sf.fileName = true
    · rw [if_pos hd] at h
      have hinv2 : ∀ x v, setWeight wm sf.fileName 10000 x = some v →
          v ≤ (valueNames dm).dedup.length ∨ (v = 10000 ∧ isDecl x = true) := by
        intro x v hx
        by_cases hxp : x = sf.fileName
        · subst hxp
          simp [setWeight] at hx
          exact Or.inr ⟨hx.symm, hd⟩
        · simp [setWeight, hxp] at hx
          exact hinv x v hx
      obtain ⟨hi, hkeep, hdecl⟩ := ih _ wm1 h hinv2
      refine ⟨hi, ?_, ?_⟩
      · intro x hx
        refine hkeep x ?_
        by_cases hxp : x = sf.fileName
        · subst hxp
          simp [setWeight]
        · simp [setWeight, hxp]
          exact hx
      · intro sf2 hsf2 hd2
        rcases List.mem_cons.1 hsf2 with rfl | hsf2
        · refine hkeep sf2.fileName ?_
          simp [setWeight]
        · exact hdecl sf2 hsf2 hd2
    · rw [if_neg hd] at h
      rcases hu : updatePathWeight dm (upwFuel dm) wm sf.fileName 0 [sf.fileName] with ⟨wmr, o⟩
      rw [hu] at h
      cases o with
      | some r => simp at h
      | none =>
        have hbnd := upw_bound_facts dm (upwFuel dm) wm sf.fileName 0 [sf.fileName] wmr hu
          (by simp) (by simp) (by simp)
        have U := upw_none_facts dm (upwFuel dm) wm sf.fileName 0 [sf.fileName] wmr hu
          (by simp) (fuelBound_le_upwFuel dm [sf.fileName])
        have hinv2 : ∀ x v, wmr x = some v →
            v ≤ (valueNames dm).dedup.length ∨ (v = 10000 ∧ isDecl x = true) := by
          intro x v hx
          rcases hbnd x v hx with hold | hb
          · exact hinv x v hold
          · exact Or.inl hb
        obtain ⟨hi, hkeep, hdecl⟩ := ih wmr wm1 h hinv2
        refine ⟨hi, ?_, ?_⟩
        · intro x hx
          refine hkeep x ?_
          obtain ⟨v2, hv2, hge⟩ := U.mono x 10000 hx
          rcases hbnd x v2 hv2 with hold | hb
          · rw [hx] at hold
            cases hold
            exact hv2
          · omega
        · intro sf2 hsf2 hd2
          rcases List.mem_cons.1 hsf2 with rfl | hsf2
          · rw [hd2] at hd
            cases hd rfl
          · exact hdecl sf2 hsf2 hd2

/-- C4 (amended): provided the number of distinct dependency targets is
below 10000 (so every realizable chain is shorter than the sentinel), the
sentinel weight of every declaration unit is exactly 10000 in the final
weight map and strictly exceeds the weight of every non-declaration unit.
The unqualified claim is false: the sentinel is a fixed constant and a
10001-unit chain reaches it (see the counterexample). -/
theorem c4_amended_sentinel_dominates (isDecl : α → Bool) (files : List (SourceFile α))
    (dm : DepMap α)
    (hD : (valueNames dm).dedup.length < 10000)
    (hnone : (sortLoop isDecl dm files (fun _ => none)).2 = none) :
    ∀ d ∈ files, isDecl d.fileName = true →
      (sortLoop isDecl dm files (fun _ => none)).1 d.fileName = some 10000
      ∧ ∀ u ∈ files, isDecl u.fileName = false →
        ∀ vu, (sortLoop isDecl dm files (fun _ => none)).1 u.fileName = some vu →
          vu < 10000 := by
  rcases hsl : sortLoop isDecl dm files (fun _ => none) with ⟨wm1, o⟩
  rw [hsl] at hnone
  simp at hnone
  subst hnone
  obtain ⟨hi, hkeep, hdecl⟩ := sortLoop_bound_facts isDecl dm hD files (fun _ => none) wm1 hsl
    (by intro x v hx; cases hx)
  intro d hdm hdd
  refine ⟨hdecl d hdm hdd, ?_⟩
  intro u hum hud vu hvu
  rcases hi u.fileName vu hvu with hb | ⟨-, hflag⟩
  · omega
  · rw [hud] at hflag
    cases hflag

/-- Files for the amended C4 witness: two plain files and one declaration
file (name 5). -/
def exC4wFiles : List (SourceFile Nat) :=
  [⟨0, false, false, []⟩, ⟨1, false, false, []⟩, ⟨5, false, false, []⟩]

def exC4wIsDecl : Nat → Bool := fun n => n == 5

/-- Witness for the amended C4. -/
theorem c4_amended_sentinel_dominates_witness :
    ((valueNames exOneEdgeDm).dedup.length < 10000
      ∧ (sortLoop exC4wIsDecl exOneEdgeDm exC4wFiles (fun _ => none)).2 = none)
    ∧ ∀ d ∈ exC4wFiles, exC4wIsDecl d.fileName = true →
      (sortLoop exC4wIsDecl exOneEdgeDm exC4wFiles (fun _ => none)).1 d.fileName = some 10000
      ∧ ∀ u ∈ exC4wFiles, exC4wIsDecl u.fileName = false →
        ∀ vu, (sortLoop exC4wIsDecl exOneEdgeDm exC4wFiles (fun _ => none)).1 u.fileName
            = some vu → vu < 10000 := by
  have h1 : (valueNames exOneEdgeDm).dedup.length < 10000 := by decide
  have h2 : (sortLoop exC4wIsDecl exOneEdgeDm exC4wFiles (fun _ => none)).2 = none := by decide
  exact ⟨⟨h1, h2⟩, c4_amended_sentinel_dominates exC4wIsDecl exC4wFiles exOneEdgeDm h1 h2⟩

/-- C6: on the concrete three-file instance, file 0's top-level code calls
a function declared in file 1 whose body references a value declared in
file 2; the builder records edge 0 → 1 (call site) and, recursing into the
called function's body in the declaring file's context, edge 1 → 2; no
cycle exists among the three, and the output order places file 2 before
file 1 and file 1 before file 0. -/
theorem c6_call_body_recursion :
    depsOf (buildDependencyMap exNoDecl exCallFiles) 0 = [1]
    ∧ depsOf (buildDependencyMap exNoDecl exCallFiles) 1 = [2]
    ∧ depsOf (buildDependencyMap exNoDecl exCallFiles) 2 = []
    ∧ (reorderSourceFiles exNoDecl exCallFiles []).1.circularReferences = []
    ∧ (reorderSourceFiles exNoDecl exCallFiles []).1.sortedFileNames = [2, 1, 0] := by
  decide

/-! ### Acyclic inputs: no cycle is reported and the output is topological -/

theorem chain'_transGen {R : α → α → Prop} :
    ∀ (l : List α) (a b : α), List.Chain' R (a :: l) → l ≠ [] →
      (a :: l).getLast? = some b → Relation.TransGen R a b := by
  intro l
  induction l with
  | nil =>
    intro a b _ hne _
    cases hne rfl
  | cons c t ih =>
    intro a b hch _ hlast
    have hr : R a c := (List.chain'_cons.1 hch).1
    have hct : List.Chain' R (c :: t) := (List.chain'_cons.1 hch).2
    cases t with
    | nil =>
      rw [List.getLast?_cons_cons, List.getLast?_singleton] at hlast
      have hcb : c = b := by injection hlast
      subst hcb
      exact Relation.TransGen.single hr
    | cons d t2 =>
      rw [List.getLast?_cons_cons] at hlast
      exact Relation.TransGen.head hr (ih c b hct (by simp) hlast)

/-- A reported cycle path (a list ending in a repetition of one of its
earlier entries, consecutive entries being edges) yields a transitive
self-dependency. -/
theorem transGen_of_cycle_path {dm : DepMap α} {r l : List α} {x : α}
    (hr : r = l ++ [x]) (hx : x ∈ l)
    (hch : List.Chain' (fun a b => Edge dm a b) r) :
    Relation.TransGen (fun a b => Edge dm a b) x x := by
  obtain ⟨s, t, hst⟩ := List.append_of_mem hx
  rw [hr, hst] at hch
  have hre : (s ++ x :: t) ++ [x] = s ++ (x :: (t ++ [x])) := by simp
  rw [hre] at hch
  have h2 := (List.chain'_append.1 hch).2.1
  refine chain'_transGen (t ++ [x]) x x h2 (by simp) ?_
  rw [show x :: (t ++ [x]) = (x :: t) ++ [x] from rfl, List.getLast?_concat]

/-- On an acyclic dependency map the sorter loop never reports a cycle. -/
theorem sortLoop_acyclic_none (isDecl : α → Bool) (dm : DepMap α)
    (hacyc : ∀ x, ¬ Relation.TransGen (fun a b => Edge dm a b) x x)
    (files : List (SourceFile α)) (wm : WeightMap α) :
    (sortLoop isDecl dm files wm).2 = none := by
  rcases h : sortLoop isDecl dm files wm with ⟨wm1, o⟩
  cases o with
  | none => rfl
  | some r =>
    exfalso
    obtain ⟨⟨l, x, hr, hx⟩, hch⟩ := sortLoop_some_facts isDecl dm files wm wm1 r h
    exact hacyc x (transGen_of_cycle_path hr hx hch)

theorem transGen_exists_first {R : α → α → Prop} {x y : α}
    (h : Relation.TransGen R x y) : ∃ c, R x c := by
  induction h with
  | single e => exact ⟨_, e⟩
  | tail _ _ ih => exact ih

/-- Weights grow strictly along every transitive dependency. -/
theorem satW_transGen {dm : DepMap α} {wm : WeightMap α} (hs : SatW dm wm) {x y : α}
    (h : Relation.TransGen (fun a b => Edge dm a b) x y) :
    ∀ vx, wm x = some vx → ∃ vy, wm y = some vy ∧ vx + 1 ≤ vy := by
  induction h with
  | single e =>
    intro vx hvx
    exact hs x vx hvx _ e
  | tail hxb e ih =>
    intro vx hvx
    obtain ⟨vb, hvb, hle⟩ := ih vx hvx
    obtain ⟨vy, hvy, hle2⟩ := hs _ vb hvb _ e
    exact ⟨vy, hvy, by omega⟩

theorem perm_insertDesc {β : Type} (key : β → Nat) (x : β) :
    ∀ l : List β, (insertDesc key x l).Perm (x :: l) := by
  intro l
  induction l with
  | nil => exact List.Perm.refl _
  | cons y ys ih =>
    simp only [insertDesc]
    by_cases hlt : key y < key x
    · rw [if_pos hlt]
    · rw [if_neg hlt]
      exact (List.Perm.cons y ih).trans (List.Perm.swap x y ys)

theorem perm_foldl_insertDesc {β : Type} (key : β → Nat) :
    ∀ (l acc : List β),
      (l.foldl (fun a x => insertDesc key x a) acc).Perm (l ++ acc) := by
  intro l
  induction l with
  | nil => intro acc; simp
  | cons x xs ih =>
    intro acc
    have h1 := ih (insertDesc key x acc)
    have h2 : (xs ++ insertDesc key x acc).Perm (xs ++ (x :: acc)) :=
      List.Perm.append_left xs (perm_insertDesc key x acc)
    have h3 : (xs ++ (x :: acc)).Perm (x :: (xs ++ acc)) := List.perm_middle
    simpa using h1.trans (h2.trans h3)

/-- The stable descending sort permutes its input. -/
theorem perm_sortByWeightDesc {β : Type} (key : β → Nat) (l : List β) :
    (sortByWeightDesc key l).Perm l := by
  have h := perm_foldl_insertDesc key l []
  simpa [sortByWeightDesc] using h

theorem pairwise_insertDesc {β : Type} (key : β → Nat) (x : β) :
    ∀ l : List β, List.Pairwise (fun a b => key b ≤ key a) l →
      List.Pairwise (fun a b => key b ≤ key a) (insertDesc key x l) := by
  intro l
  induction l with
  | nil => intro _; simp [insertDesc]
  | cons y ys ih =>
    intro hp
    rcases List.pairwise_cons.1 hp with ⟨hy, hys⟩
    simp only [insertDesc]
    by_cases hlt : key y < key x
    · rw [if_pos hlt]
      refine List.Pairwise.cons ?_ hp
      intro z hz
      rcases List.mem_cons.1 hz with rfl | hz2
      · omega
      · have := hy z hz2
        omega
    · rw [if_neg hlt]
      refine List.Pairwise.cons ?_ (ih hys)
      intro z hz
      rcases List.mem_cons.1 ((perm_insertDesc key x ys).subset hz) with rfl | hz2
      · omega
      · exact hy z hz2

/-- The stable descending sort produces a list whose keys never increase. -/
theorem pairwise_sortByWeightDesc {β : Type} (key : β → Nat) (l : List β) :
    List.Pairwise (fun a b => key b ≤ key a) (sortByWeightDesc key l) := by
  suffices h : ∀ acc, List.Pairwise (fun a b => key b ≤ key a) acc →
      List.Pairwise (fun a b => key b ≤ key a)
        (l.foldl (fun a x => insertDesc key x a) acc) by
    exact h [] (by simp)
  induction l with
  | nil => intro acc h; simpa using h
  | cons x xs ih =>
    intro acc h
    exact ih (insertDesc key x acc) (pairwise_insertDesc key x acc h)

/-- In the descending-sorted output a strictly larger key sits strictly
earlier. -/
theorem sorted_desc_position {β : Type} (key : β → Nat) (l : List β)
    (i j : Fin (sortByWeightDesc key l).length)
    (h : key ((sortByWeightDesc key l).get i) < key ((sortByWeightDesc key l).get j)) :
    (j : Nat) < (i : Nat) := by
  by_contra hji
  have hij : (i : Nat) ≤ (j : Nat) := Nat.le_of_not_lt hji
  rcases Nat.eq_or_lt_of_le hij with heq | hlt
  · have hejq : i = j := Fin.ext heq
    subst hejq
    omega
  · have hfin : i < j := hlt
    have hp := List.pairwise_iff_get.1 (pairwise_sortByWeightDesc key l) i j hfin
    omega

/-- Shape of `sortOnDependency` when the weight loop reports no cycle. -/
theorem sortOnDependency_none_eq (isDecl : α → Bool) (files : List (SourceFile α))
    (roots : List α) (dm : DepMap α) (wm1 : WeightMap α)
    (h : sortLoop isDecl dm files (fun _ => none) = (wm1, none)) :
    sortOnDependency isDecl files roots dm =
      ({ sortedFileNames :=
            (((sortByWeightDesc (fun sf => (wm1 sf.fileName).getD 0) files).filter
              (fun sf => !sf.hasNoDefaultLib)).map (fun sf => sf.fileName)),
         circularReferences := [] },
        sortByWeightDesc (fun sf => (wm1 sf.fileName).getD 0) files,
        (sortByWeightDesc (fun sf => (wm1 sf.fileName).getD 0) files).map
          (fun sf => sf.fileName)) := by
  simp [sortOnDependency, h]

/-- C1: if the dependency map is acyclic (and its edges avoid declaration
files, which is what the builder guarantees), the sort reports no cycle,
the output is a permutation of the input, and every unit is emitted after
all units it transitively depends on: a transitive dependency of the unit
at position i sits at a position j < i. -/
theorem c1_acyclic_topological (isDecl : α → Bool) (files : List (SourceFile α))
    (roots : List α) (dm : DepMap α)
    (hk : ∀ a b, Edge dm a b → isDecl a = false ∧ isDecl b = false)
    (hacyc : ∀ x, ¬ Relation.TransGen (fun a b => Edge dm a b) x x) :
    (sortOnDependency isDecl files roots dm).1.circularReferences = []
    ∧ ((sortOnDependency isDecl files roots dm).2.1).Perm files
    ∧ ∀ (i j : Fin ((sortOnDependency isDecl files roots dm).2.1).length),
        Relation.TransGen (fun a b => Edge dm a b)
          (((sortOnDependency isDecl files roots dm).2.1).get i).fileName
          (((sortOnDependency isDecl files roots dm).2.1).get j).fileName →
        (j : Nat) < (i : Nat) := by
  rcases hsl : sortLoop isDecl dm files (fun _ => none) with ⟨wm1, o⟩
  have ho : o = none := by
    have h2 := sortLoop_acyclic_none isDecl dm hacyc files (fun _ => none)
    rw [hsl] at h2
    exact h2
  subst ho
  obtain ⟨hsat, hkeep, hass⟩ := sortLoop_none_facts isDecl dm hk files (fun _ => none) wm1 hsl
    (by intro a va hva; cases hva)
  rw [sortOnDependency_none_eq isDecl files roots dm wm1 hsl]
  refine ⟨rfl, perm_sortByWeightDesc _ files, ?_⟩
  intro i j htg
  have hperm := perm_sortByWeightDesc (fun sf => (wm1 sf.fileName).getD 0) files
  have hxmem := hperm.subset (List.mem_iff_get.2 ⟨i, rfl⟩)
  have hxd : isDecl (((sortByWeightDesc (fun sf => (wm1 sf.fileName).getD 0) files).get
      i).fileName) = false := by
    obtain ⟨c, e⟩ := transGen_exists_first htg
    exact (hk _ _ e).1
  have hassx := hass _ hxmem hxd
  obtain ⟨vx, hvx⟩ := Option.isSome_iff_exists.1 hassx
  obtain ⟨vy, hvy, hlt⟩ := satW_transGen hsat htg vx hvx
  refine sorted_desc_position (fun sf => (wm1 sf.fileName).getD 0) files i j ?_
  simp only [hvx, hvy, Option.getD_some]
  omega

theorem depsOf_exOneEdgeDm (a : Nat) :
    depsOf exOneEdgeDm a = if a = 0 then [1] else [] := by
  by_cases ha : a = 0 <;> simp [depsOf, exOneEdgeDm, lookupDep, ha]

theorem edge_exOneEdgeDm {a b : Nat} (h : Edge exOneEdgeDm a b) : a = 0 ∧ b = 1 := by
  have hd := depsOf_exOneEdgeDm a
  simp only [Edge] at h
  by_cases ha : a = 0
  · rw [hd, if_pos ha] at h
    simp at h
    exact ⟨ha, h⟩
  · rw [hd, if_neg ha] at h
    simp at h

/-- The single-edge map 0 → 1 is acyclic. -/
theorem exOneEdgeDm_acyclic :
    ∀ x : Nat, ¬ Relation.TransGen (fun a b => Edge exOneEdgeDm a b) x x := by
  have hgen : ∀ x y : Nat,
      Relation.TransGen (fun a b => Edge exOneEdgeDm a b) x y → x = 0 ∧ y = 1 := by
    intro x y h
    induction h with
    | single e => exact edge_exOneEdgeDm e
    | tail hxb e ih =>
      obtain ⟨hx0, hb1⟩ := ih
      obtain ⟨hb0, -⟩ := edge_exOneEdgeDm e
      omega
  intro x h
  obtain ⟨h0, h1⟩ := hgen x x h
  omega

/-- Witness for C1 on the single-edge acyclic input. -/
theorem c1_acyclic_topological_witness :
    ((∀ a b : Nat, Edge exOneEdgeDm a b → exNoDecl a = false ∧ exNoDecl b = false)
      ∧ (∀ x : Nat, ¬ Relation.TransGen (fun a b => Edge exOneEdgeDm a b) x x))
    ∧ (sortOnDependency exNoDecl exTwoFiles [] exOneEdgeDm).1.circularReferences = []
    ∧ ((sortOnDependency exNoDecl exTwoFiles [] exOneEdgeDm).2.1).Perm exTwoFiles
    ∧ ∀ (i j : Fin ((sortOnDependency exNoDecl exTwoFiles [] exOneEdgeDm).2.1).length),
        Relation.TransGen (fun a b => Edge exOneEdgeDm a b)
          (((sortOnDependency exNoDecl exTwoFiles [] exOneEdgeDm).2.1).get i).fileName
          (((sortOnDependency exNoDecl exTwoFiles [] exOneEdgeDm).2.1).get j).fileName →
        (j : Nat) < (i : Nat) :=
  ⟨⟨fun a b _ => ⟨rfl, rfl⟩, exOneEdgeDm_acyclic⟩,
    c1_acyclic_topological exNoDecl exTwoFiles [] exOneEdgeDm
      (fun a b _ => ⟨rfl, rfl⟩) exOneEdgeDm_acyclic⟩

end ts
